import Mathlib

/-!
# LibPixel URL signer (libpixel.go)

A shallow embedding of `src/libpixel.go` together with the parts of the Go
standard library the two entry points run through:

* `crypto/sha1`, `crypto/hmac` and the `%x` verb of `fmt` (the signature),
* `net/url` (`Parse`, `URL.String`, `Values.Add`, `Values.Encode`), following
  the go1.22 sources function by function.  Later releases read a host more
  strictly (go1.22 checks the port after the last ':' of the host and treats
  '[' as special only where it starts the host) and print a path that begins
  with "//" differently when the URL has no host; on such inputs the
  definitions below are those of go1.22, and no property below asserts that
  such a host parses.

A Go string is a sequence of bytes.  It is represented by a `List Char` whose
characters stand for the bytes (code point = byte value); an ASCII literal
`"abc".toList` is the Go string `"abc"`.
-/

namespace LibPixel

/-! ## crypto/sha1 -/

/-- Left rotation of a 32-bit word (`bits.RotateLeft32`). -/
def rotl32 (x k : Nat) : Nat :=
  ((x <<< k) ||| (x >>> (32 - k))) % 4294967296

/-- Big-endian 32-bit word made of four bytes. -/
def beWord (b0 b1 b2 b3 : Nat) : Nat :=
  b0 * 16777216 + b1 * 65536 + b2 * 256 + b3

/-- The four bytes of a 32-bit word, most significant first. -/
def wordBytes (w : Nat) : List Nat :=
  [w / 16777216 % 256, w / 65536 % 256, w / 256 % 256, w % 256]

/-- The big-endian words of a block of bytes. -/
def blockWords : List Nat → List Nat
  | b0 :: b1 :: b2 :: b3 :: rest => beWord b0 b1 b2 b3 :: blockWords rest
  | _ => []

/-- Message schedule, kept newest first: the list holds W[t-1], W[t-2], ... and
`schedule n` adds the next `n` words W[t] = rotl1 (W[t-3] ^ W[t-8] ^ W[t-14] ^ W[t-16]). -/
def schedule : Nat → List Nat → List Nat
  | 0, w => w
  | n + 1, w =>
    schedule n (rotl32 (w.getD 2 0 ^^^ w.getD 7 0 ^^^ w.getD 13 0 ^^^ w.getD 15 0) 1 :: w)

/-- The five chaining words of SHA-1. -/
structure Digest where
  h0 : Nat
  h1 : Nat
  h2 : Nat
  h3 : Nat
  h4 : Nat
deriving DecidableEq, Repr

/-- Round function of round `t`. -/
def sha1F (t b c d : Nat) : Nat :=
  if t < 20 then (b &&& c) ||| ((b ^^^ 4294967295) &&& d)
  else if t < 40 then b ^^^ c ^^^ d
  else if t < 60 then (b &&& c) ||| (b &&& d) ||| (c &&& d)
  else b ^^^ c ^^^ d

/-- Round constant of round `t`. -/
def sha1K (t : Nat) : Nat :=
  if t < 20 then 0x5A827999
  else if t < 40 then 0x6ED9EBA1
  else if t < 60 then 0x8F1BBCDC
  else 0xCA62C1D6

/-- The rounds of one block: one round per schedule word, `t` counting from 0. -/
def rounds : List Nat → Nat → Digest → Digest
  | [], _, s => s
  | w :: ws, t, s =>
    rounds ws (t + 1)
      { h0 := (rotl32 s.h0 5 + sha1F t s.h1 s.h2 s.h3 + s.h4 + w + sha1K t) % 4294967296,
        h1 := s.h0, h2 := rotl32 s.h1 30, h3 := s.h2, h4 := s.h3 }

/-- Compression of one 64-byte block into the chaining value. -/
def blockStep (h : Digest) (block : List Nat) : Digest :=
  let w := (schedule 64 (blockWords block).reverse).reverse
  let s := rounds w 0 h
  { h0 := (h.h0 + s.h0) % 4294967296, h1 := (h.h1 + s.h1) % 4294967296,
    h2 := (h.h2 + s.h2) % 4294967296, h3 := (h.h3 + s.h3) % 4294967296,
    h4 := (h.h4 + s.h4) % 4294967296 }

/-- The message length in bits as eight big-endian bytes. -/
def lenBytes (n : Nat) : List Nat :=
  [n / 72057594037927936 % 256, n / 281474976710656 % 256, n / 1099511627776 % 256,
   n / 4294967296 % 256, n / 16777216 % 256, n / 65536 % 256, n / 256 % 256, n % 256]

/-- SHA-1 padding: 0x80, zeros up to 56 mod 64, then the bit length. -/
def sha1Pad (msg : List Nat) : List Nat :=
  msg ++ 128 :: List.replicate ((119 - msg.length % 64) % 64) 0 ++ lenBytes (8 * msg.length)

/-- The first `n` 64-byte blocks of a byte sequence. -/
def blocks : Nat → List Nat → List (List Nat)
  | 0, _ => []
  | n + 1, l => l.take 64 :: blocks n (l.drop 64)

/-- Initial chaining value. -/
def sha1Init : Digest :=
  { h0 := 0x67452301, h1 := 0xEFCDAB89, h2 := 0x98BADCFE, h3 := 0x10325476, h4 := 0xC3D2E1F0 }

/-- The 20 digest bytes of `sha1.Sum`. -/
def sha1 (msg : List Nat) : List Nat :=
  let p := sha1Pad msg
  let d := (blocks (p.length / 64) p).foldl blockStep sha1Init
  wordBytes d.h0 ++ wordBytes d.h1 ++ wordBytes d.h2 ++ wordBytes d.h3 ++ wordBytes d.h4

/-! ## crypto/hmac -/

/-- Key preparation of `hmac.New`: a key longer than the block size is hashed,
then the key is zero-padded to the block size (64). -/
def hmacKey (key : List Nat) : List Nat :=
  let k := if key.length > 64 then sha1 key else key
  k ++ List.replicate (64 - k.length) 0

/-- The bytes `m.Sum(nil)` of `m := hmac.New(sha1.New, key); m.Write(msg)`. -/
def hmacSha1 (key msg : List Nat) : List Nat :=
  let k := hmacKey key
  sha1 (k.map (· ^^^ 0x5c) ++ sha1 (k.map (· ^^^ 0x36) ++ msg))

/-- One lowercase hexadecimal digit. -/
def hexDigit (n : Nat) : Char := "0123456789abcdef".toList.getD n '0'

/-- The result of `fmt.Sprintf("%x", bs)` for a byte slice: two lowercase
hexadecimal digits per byte. -/
def hexLower : List Nat → List Char
  | [] => []
  | b :: bs => hexDigit (b / 16) :: hexDigit (b % 16) :: hexLower bs

/-! ## strings -/

/-- The function `strings.Cut` for a one-byte separator: text before the first
separator, text after it, and whether it was found. -/
def cut (sep : Char) : List Char → List Char × List Char × Bool
  | [] => ([], [], false)
  | c :: cs =>
    if c = sep then ([], cs, true)
    else ((c :: (cut sep cs).1), (cut sep cs).2.1, (cut sep cs).2.2)

/-- The function `strings.LastIndex` for a one-byte separator. -/
def lastIndexByte (sep : Char) : List Char → Option Nat
  | [] => none
  | c :: cs =>
    match lastIndexByte sep cs with
    | some i => some (i + 1)
    | none => if c = sep then some 0 else none

/-- The function `strings.Index` for a substring. -/
def index (sub : List Char) : List Char → Option Nat
  | [] => if sub = [] then some 0 else none
  | c :: cs =>
    if sub.isPrefixOf (c :: cs) then some 0
    else (index sub cs).map (· + 1)

/-! ## net/url: escaping -/

/-- The URL component an escaping applies to (`type encoding`). -/
inductive encoding
  | encodePath
  | encodePathSegment
  | encodeHost
  | encodeZone
  | encodeUserPassword
  | encodeQueryComponent
  | encodeFragment
deriving DecidableEq, Repr

/-- The error values `url.Parse` can produce. -/
inductive ParseErr
  | invalidControlCharacter
  | emptyURL
  | missingProtocolScheme
  | invalidURIForRequest
  | firstPathSegmentColon
  | escapeError (s : List Char)
  | invalidHostError (s : List Char)
  | missingBracket
  | invalidPort (s : List Char)
  | invalidUserinfo
  | invalidSemicolonSeparator
deriving DecidableEq, Repr

deriving instance DecidableEq for Except

/-- The error type `url.Error`: operation, URL and cause. -/
structure Error where
  Op : List Char
  URL : List Char
  Err : ParseErr
deriving DecidableEq, Repr

/-- ASCII letters and digits. -/
def isAlnum (c : Char) : Bool :=
  ('a' ≤ c && c ≤ 'z') || ('A' ≤ c && c ≤ 'Z') || ('0' ≤ c && c ≤ '9')

/-- The function `ishex`. -/
def ishex (c : Char) : Bool :=
  ('0' ≤ c && c ≤ '9') || ('a' ≤ c && c ≤ 'f') || ('A' ≤ c && c ≤ 'F')

/-- The function `unhex`. -/
def unhex (c : Char) : Nat :=
  if '0' ≤ c ∧ c ≤ '9' then c.toNat - 48
  else if 'a' ≤ c ∧ c ≤ 'f' then c.toNat - 97 + 10
  else if 'A' ≤ c ∧ c ≤ 'F' then c.toNat - 65 + 10
  else 0

/-- Characters a host may contain unescaped (the first `switch` of `shouldEscape`). -/
def hostAllowed : List Char :=
  ['!', '$', '&', Char.ofNat 39, '(', ')', '*', '+', ',', ';', '=', ':', '[', ']', '<', '>', '"']

/-- The function `shouldEscape`: whether byte `c` is written as %XX in a
component of kind `mode`. -/
def shouldEscape (c : Char) (mode : encoding) : Bool :=
  if isAlnum c then false
  else if (mode = .encodeHost || mode = .encodeZone) && hostAllowed.contains c then false
  else if ['-', '_', '.', '~'].contains c then false
  else if ['$', '&', '+', ',', '/', ':', ';', '=', '?', '@'].contains c then
    match mode with
    | .encodePath => c = '?'
    | .encodePathSegment => c = '/' || c = ';' || c = ',' || c = '?'
    | .encodeUserPassword => c = '@' || c = '/' || c = '?' || c = ':'
    | .encodeQueryComponent => true
    | .encodeFragment => false
    | _ => true
  else if mode = .encodeFragment && ['!', '(', ')', '*'].contains c then false
  else true

/-- One digit of `upperhex`. -/
def upperhex (n : Nat) : Char := "0123456789ABCDEF".toList.getD n '0'

/-- The function `escape`: every byte is copied, turned into `+` (a space in a
query component) or into %XX. -/
def escape : List Char → encoding → List Char
  | [], _ => []
  | c :: cs, mode =>
    if c = ' ' ∧ mode = .encodeQueryComponent then '+' :: escape cs mode
    else if shouldEscape c mode then
      '%' :: upperhex (c.toNat >>> 4) :: upperhex (c.toNat &&& 15) :: escape cs mode
    else c :: escape cs mode

/-- The function `QueryEscape`. -/
def QueryEscape (s : List Char) : List Char := escape s .encodeQueryComponent

/-- First loop of `unescape`: the error it returns, if any. -/
def unescapeErr (mode : encoding) : List Char → Option ParseErr
  | [] => none
  | c :: cs =>
    if c = '%' then
      match cs with
      | a :: b :: rest =>
        if !ishex a || !ishex b then some (.escapeError [c, a, b])
        else if mode = .encodeHost && decide (unhex a < 8) && [c, a, b] != ['%', '2', '5'] then
          some (.escapeError [c, a, b])
        else if mode = .encodeZone && [c, a, b] != ['%', '2', '5']
            && Char.ofNat (unhex a <<< 4 ||| unhex b) != ' '
            && shouldEscape (Char.ofNat (unhex a <<< 4 ||| unhex b)) .encodeHost then
          some (.escapeError [c, a, b])
        else unescapeErr mode rest
      | _ => some (.escapeError (c :: cs))
    else if c = '+' then unescapeErr mode cs
    else if (mode = .encodeHost || mode = .encodeZone) && decide (c.toNat < 128)
        && shouldEscape c .encodeHost then
      some (.invalidHostError [c])
    else unescapeErr mode cs

/-- Second loop of `unescape`: the decoded bytes of a string the first loop accepted. -/
def unescapeBytes (mode : encoding) : List Char → List Char
  | [] => []
  | c :: cs =>
    if c = '%' then
      match cs with
      | a :: b :: rest => Char.ofNat (unhex a <<< 4 ||| unhex b) :: unescapeBytes mode rest
      | _ => []
    else if c = '+' then
      (if mode = .encodeQueryComponent then ' ' else '+') :: unescapeBytes mode cs
    else c :: unescapeBytes mode cs

/-- The function `unescape`. -/
def unescape (s : List Char) (mode : encoding) : Except ParseErr (List Char) :=
  match unescapeErr mode s with
  | some e => .error e
  | none => .ok (unescapeBytes mode s)

/-- The function `validEncoded`. -/
def validEncoded : List Char → encoding → Bool
  | [], _ => true
  | c :: cs, mode =>
    if ['!', '$', '&', Char.ofNat 39, '(', ')', '*', '+', ',', ';', '=', ':', '@',
        '[', ']', '%'].contains c then validEncoded cs mode
    else if shouldEscape c mode then false
    else validEncoded cs mode

/-! ## net/url: the URL type and its parser -/

/-- The type `url.Userinfo`. -/
structure Userinfo where
  username : List Char
  password : List Char
  passwordSet : Bool
deriving DecidableEq, Repr

/-- The type `url.URL`. -/
structure URL where
  Scheme : List Char
  Opaque : List Char
  User : Option Userinfo
  Host : List Char
  Path : List Char
  RawPath : List Char
  OmitHost : Bool
  ForceQuery : Bool
  RawQuery : List Char
  Fragment : List Char
  RawFragment : List Char
deriving DecidableEq, Repr

/-- The zero value `new(URL)`. -/
def URL.zero : URL :=
  { Scheme := [], Opaque := [], User := none, Host := [], Path := [], RawPath := [],
    OmitHost := false, ForceQuery := false, RawQuery := [], Fragment := [], RawFragment := [] }

/-- The function `stringContainsCTLByte`. -/
def stringContainsCTLByte (s : List Char) : Bool :=
  s.any fun b => decide (b.toNat < 32) || decide (b.toNat = 127)

/-- Loop of `getScheme`: `i` is the index of the next byte, `rawURL` the whole input. -/
def getSchemeAux (rawURL : List Char) : Nat → List Char → Except ParseErr (List Char × List Char)
  | _, [] => .ok ([], rawURL)
  | i, c :: cs =>
    if ('a' ≤ c && c ≤ 'z') || ('A' ≤ c && c ≤ 'Z') then getSchemeAux rawURL (i + 1) cs
    else if ('0' ≤ c && c ≤ '9') || c = '+' || c = '-' || c = '.' then
      if i = 0 then .ok ([], rawURL) else getSchemeAux rawURL (i + 1) cs
    else if c = ':' then
      if i = 0 then .error .missingProtocolScheme else .ok (rawURL.take i, cs)
    else .ok ([], rawURL)

/-- The function `getScheme`: scheme and rest of the input. -/
def getScheme (rawURL : List Char) : Except ParseErr (List Char × List Char) :=
  getSchemeAux rawURL 0 rawURL

/-- The function `validOptionalPort`. -/
def validOptionalPort (port : List Char) : Bool :=
  match port with
  | [] => true
  | c :: cs => c = ':' && cs.all fun b => '0' ≤ b && b ≤ '9'

/-- The function `validUserinfo`. -/
def validUserinfo (s : List Char) : Bool :=
  s.all fun r => isAlnum r ||
    ['-', '.', '_', ':', '~', '!', '$', '&', Char.ofNat 39, '(', ')', '*', '+', ',', ';', '=',
      '%', '@'].contains r

/-- The function `parseHost` of go1.22: a host that starts with '[' must have
its ']' and only a port after it; any other host may have a port after its
last ':'. -/
def parseHost (host : List Char) : Except ParseErr (List Char) :=
  if host.head? = some '[' then
    match lastIndexByte ']' host with
    | none => .error .missingBracket
    | some i =>
      if !validOptionalPort (host.drop (i + 1)) then .error (.invalidPort (host.drop (i + 1)))
      else
        match index ['%', '2', '5'] (host.take i) with
        | some zone =>
          match unescape (host.take zone) .encodeHost with
          | .error e => .error e
          | .ok host1 =>
            match unescape ((host.take i).drop zone) .encodeZone with
            | .error e => .error e
            | .ok host2 =>
              match unescape (host.drop i) .encodeHost with
              | .error e => .error e
              | .ok host3 => .ok (host1 ++ host2 ++ host3)
        | none => unescape host .encodeHost
  else
    match lastIndexByte ':' host with
    | some i =>
      if !validOptionalPort (host.drop i) then .error (.invalidPort (host.drop i))
      else unescape host .encodeHost
    | none => unescape host .encodeHost

/-- The function `parseAuthority`: user information and host. -/
def parseAuthority (authority : List Char) : Except ParseErr (Option Userinfo × List Char) :=
  match lastIndexByte '@' authority with
  | none =>
    match parseHost authority with
    | .error e => .error e
    | .ok host => .ok (none, host)
  | some i =>
    match parseHost (authority.drop (i + 1)) with
    | .error e => .error e
    | .ok host =>
      let userinfo := authority.take i
      if !validUserinfo userinfo then .error .invalidUserinfo
      else if !userinfo.contains ':' then
        match unescape userinfo .encodeUserPassword with
        | .error e => .error e
        | .ok name => .ok (some { username := name, password := [], passwordSet := false }, host)
      else
        match unescape (cut ':' userinfo).1 .encodeUserPassword with
        | .error e => .error e
        | .ok name =>
          match unescape (cut ':' userinfo).2.1 .encodeUserPassword with
          | .error e => .error e
          | .ok pw => .ok (some { username := name, password := pw, passwordSet := true }, host)

/-- The method `URL.setPath`. -/
def URL.setPath (u : URL) (p : List Char) : Except ParseErr URL :=
  match unescape p .encodePath with
  | .error e => .error e
  | .ok path =>
    .ok { u with Path := path, RawPath := if p = escape path .encodePath then [] else p }

/-- The method `URL.setFragment`. -/
def URL.setFragment (u : URL) (f : List Char) : Except ParseErr URL :=
  match unescape f .encodeFragment with
  | .error e => .error e
  | .ok frag =>
    .ok { u with Fragment := frag,
                 RawFragment := if f = escape frag .encodeFragment then [] else f }

/-- Last part of `parse`, once scheme and query are split off: opaque part, or
authority and path. -/
def parseRest (url : URL) (rest : List Char) (viaRequest : Bool) : Except ParseErr URL :=
  if ¬ ['/'].isPrefixOf rest ∧ url.Scheme ≠ [] then .ok { url with Opaque := rest }
  else if ¬ ['/'].isPrefixOf rest ∧ viaRequest then .error .invalidURIForRequest
  else if ¬ ['/'].isPrefixOf rest ∧ (cut '/' rest).1.contains ':' then
    .error .firstPathSegmentColon
  else if (url.Scheme ≠ [] ∨ (!viaRequest ∧ ¬ ['/', '/', '/'].isPrefixOf rest))
      ∧ ['/', '/'].isPrefixOf rest then
    match parseAuthority (cut '/' (rest.drop 2)).1 with
    | .error e => .error e
    | .ok (user, host) =>
      URL.setPath { url with User := user, Host := host }
        (if (cut '/' (rest.drop 2)).2.2 then '/' :: (cut '/' (rest.drop 2)).2.1 else [])
  else if url.Scheme ≠ [] ∧ ['/'].isPrefixOf rest then
    URL.setPath { url with OmitHost := true } rest
  else URL.setPath url rest

/-- The function `parse` (the error cases of `viaRequest` included). -/
def parse (rawURL : List Char) (viaRequest : Bool) : Except ParseErr URL :=
  if stringContainsCTLByte rawURL then .error .invalidControlCharacter
  else if rawURL = [] ∧ viaRequest then .error .emptyURL
  else if rawURL = ['*'] then .ok { URL.zero with Path := ['*'] }
  else
    match getScheme rawURL with
    | .error e => .error e
    | .ok (scheme, rest) =>
      if rest.getLast? = some '?' ∧ rest.count '?' = 1 then
        parseRest { URL.zero with Scheme := scheme.map Char.toLower, ForceQuery := true }
          rest.dropLast viaRequest
      else
        parseRest { URL.zero with Scheme := scheme.map Char.toLower,
                                  RawQuery := (cut '?' rest).2.1 }
          (cut '?' rest).1 viaRequest

/-- The function `url.Parse`. -/
def Parse (rawURL : List Char) : Except Error URL :=
  match parse (cut '#' rawURL).1 false with
  | .error e => .error { Op := "parse".toList, URL := (cut '#' rawURL).1, Err := e }
  | .ok url =>
    if (cut '#' rawURL).2.1 = [] then .ok url
    else
      match url.setFragment (cut '#' rawURL).2.1 with
      | .error e => .error { Op := "parse".toList, URL := rawURL, Err := e }
      | .ok url => .ok url

/-! ## net/url: printing -/

/-- The method `Userinfo.String`. -/
def Userinfo.String (u : Userinfo) : List Char :=
  escape u.username .encodeUserPassword ++
    (if u.passwordSet then ':' :: escape u.password .encodeUserPassword else [])

/-- Whether `unescape raw mode` succeeds with result `s` (`err == nil && p == s`). -/
def unescapesTo (raw : List Char) (mode : encoding) (s : List Char) : Bool :=
  match unescape raw mode with
  | .ok p => p = s
  | .error _ => false

/-- The method `URL.EscapedPath`. -/
def URL.EscapedPath (u : URL) : List Char :=
  if u.RawPath ≠ [] ∧ validEncoded u.RawPath .encodePath
      ∧ unescapesTo u.RawPath .encodePath u.Path then u.RawPath
  else if u.Path = ['*'] then ['*']
  else escape u.Path .encodePath

/-- The method `URL.EscapedFragment`. -/
def URL.EscapedFragment (u : URL) : List Char :=
  if u.RawFragment ≠ [] ∧ validEncoded u.RawFragment .encodeFragment
      ∧ unescapesTo u.RawFragment .encodeFragment u.Fragment then u.RawFragment
  else escape u.Fragment .encodeFragment

/-- What `URL.String` writes for the authority, after the scheme. -/
def URL.authorityString (u : URL) : List Char :=
  if u.Scheme ≠ [] ∨ u.Host ≠ [] ∨ u.User.isSome then
    if u.OmitHost ∧ u.Host = [] ∧ u.User.isNone then []
    else
      (if u.Host ≠ [] ∨ u.Path ≠ [] ∨ u.User.isSome then ['/', '/'] else []) ++
      (match u.User with
        | some ui => ui.String ++ ['@']
        | none => []) ++
      (if u.Host ≠ [] then escape u.Host .encodeHost else [])
  else []

/-- What `URL.String` writes before the query: scheme, opaque part or authority and path. -/
def URL.stringHead (u : URL) : List Char :=
  let buf := if u.Scheme ≠ [] then u.Scheme ++ [':'] else []
  if u.Opaque ≠ [] then buf ++ u.Opaque
  else
    let buf := buf ++ u.authorityString
    let path := u.EscapedPath
    let buf := if path ≠ [] ∧ path.head? ≠ some '/' ∧ u.Host ≠ [] then buf ++ ['/'] else buf
    let buf :=
      if buf = [] ∧ (cut '/' path).1.contains ':' then buf ++ ['.', '/'] else buf
    buf ++ path

/-- The method `URL.String`. -/
def URL.String (u : URL) : List Char :=
  u.stringHead ++
    (if u.ForceQuery ∨ u.RawQuery ≠ [] then '?' :: u.RawQuery else []) ++
    (if u.Fragment ≠ [] then '#' :: u.EscapedFragment else [])

/-! ## net/url: query values -/

/-- Byte-wise lexicographic order of Go strings (`a <= b`). -/
def strLE : List Char → List Char → Bool
  | [], _ => true
  | _ :: _, [] => false
  | a :: as, b :: bs => decide (a < b) || (a = b && strLE as bs)

/-- The type `url.Values`, a map from key to the list of its values: an
association list with one entry per key. -/
abbrev Values := List (List Char × List (List Char))

/-- The value `v[key]` of the map (nil for a missing key). -/
def Values.get (v : Values) (key : List Char) : List (List Char) :=
  match v with
  | [] => []
  | (k, vs) :: rest => if k = key then vs else Values.get rest key

/-- The method `Values.Add`: `v[key] = append(v[key], value)`. -/
def Values.Add (v : Values) (key value : List Char) : Values :=
  match v with
  | [] => [(key, [value])]
  | (k, vs) :: rest =>
    if k = key then (k, vs ++ [value]) :: rest else (k, vs) :: Values.Add rest key value

/-- Inner loop of `Values.Encode`: the values of one key written to `buf`. -/
def encodeValues (keyEscaped : List Char) : List (List Char) → List Char → List Char
  | [], buf => buf
  | v :: vs, buf =>
    encodeValues keyEscaped vs
      ((if buf ≠ [] then buf ++ ['&'] else buf) ++ keyEscaped ++ ['='] ++ QueryEscape v)

/-- Outer loop of `Values.Encode` over the sorted keys. -/
def encodeKeys (v : Values) : List (List Char) → List Char → List Char
  | [], buf => buf
  | k :: ks, buf => encodeKeys v ks (encodeValues (QueryEscape k) (v.get k) buf)

/-- The method `Values.Encode`: "bar=baz&foo=quux", sorted by key. -/
def Values.Encode (v : Values) : List Char :=
  encodeKeys v ((v.map Prod.fst).insertionSort fun a b => strLE a b = true) []

/-- Loop of `parseQuery`: every round cuts the next "&"-separated piece off
`query`; `fuel` bounds the number of rounds, `err` is the first error so far. -/
def parseQueryLoop : Nat → Values → Option ParseErr → List Char → Values × Option ParseErr
  | 0, m, err, _ => (m, err)
  | fuel + 1, m, err, query =>
    if query = [] then (m, err)
    else if (cut '&' query).1.contains ';' then
      parseQueryLoop fuel m (some .invalidSemicolonSeparator) (cut '&' query).2.1
    else if (cut '&' query).1 = [] then parseQueryLoop fuel m err (cut '&' query).2.1
    else
      match unescape (cut '=' (cut '&' query).1).1 .encodeQueryComponent with
      | .error err1 =>
        parseQueryLoop fuel m (if err = none then some err1 else err) (cut '&' query).2.1
      | .ok key =>
        match unescape (cut '=' (cut '&' query).1).2.1 .encodeQueryComponent with
        | .error err1 =>
          parseQueryLoop fuel m (if err = none then some err1 else err) (cut '&' query).2.1
        | .ok value => parseQueryLoop fuel (m.Add key value) err (cut '&' query).2.1

/-- The function `url.ParseQuery`: the values read and the first error.  The
loop runs at most once per byte of the query, so the fuel is never used up. -/
def ParseQuery (query : List Char) : Values × Option ParseErr :=
  parseQueryLoop (query.length + 1) [] none query

/-! ## fmt -/

/-- Decimal digits of a natural number, most significant first; `fuel` bounds
the number of digits. -/
def natDigits : Nat → Nat → List Char
  | 0, _ => []
  | fuel + 1, n =>
    if n < 10 then [Char.ofNat (48 + n)]
    else natDigits fuel (n / 10) ++ [Char.ofNat (48 + n % 10)]

/-- A value stored in `Params` (`interface{}`): an integer, a string, a
boolean, or any other value, given by the text the `%v` verb prints for it. -/
inductive Value
  | int (n : Int)
  | str (s : List Char)
  | bool (b : Bool)
  | other (printed : List Char)
deriving DecidableEq, Repr

/-- The result of `fmt.Sprintf("%v", v)`. -/
def Sprintv : Value → List Char
  | .int n =>
    if n < 0 then '-' :: natDigits (n.natAbs + 1) n.natAbs else natDigits (n.natAbs + 1) n.natAbs
  | .str s => s
  | .bool b => if b then "true".toList else "false".toList
  | .other printed => printed

/-! ## libpixel.go -/

/-- The type `Client`. -/
structure Client where
  Host : List Char
  HTTPS : Bool
  Secret : List Char
deriving DecidableEq, Repr

/-- The type `Params`, a Go map: its entries in the order the `range` loop
visits them (keys are distinct; nil is the empty list). -/
abbrev Params := List (List Char × Value)

/-- The string `s` that `sign` authenticates (lines 61-68): the path, "/" when
empty, followed by "?" and the raw query when there is one. -/
def stringToSign (u : URL) : List Char :=
  let path := if u.Path = [] then ['/'] else u.Path
  if u.RawQuery ≠ [] then path ++ '?' :: u.RawQuery else path

/-- The value of `signature` in `sign` (lines 70-72). -/
def signature (c : Client) (u : URL) : List Char :=
  hexLower (hmacSha1 (c.Secret.map Char.toNat) ((stringToSign u).map Char.toNat))

/-- The URL as `sign` leaves it before printing: path defaulted, signature
appended to the raw query (lines 61-63 and 74-77). -/
def signedURL (c : Client) (u : URL) : URL :=
  { u with
    Path := if u.Path = [] then ['/'] else u.Path,
    RawQuery := (if u.RawQuery ≠ [] then u.RawQuery ++ ['&'] else u.RawQuery)
      ++ "signature=".toList ++ signature c u }

/-- The method `Client.sign`. -/
def Client.sign (c : Client) (u : URL) : List Char :=
  (signedURL c u).String

/-- The method `Client.Sign`: the returned string and error (`none` is nil). -/
def Client.Sign (c : Client) (uri : List Char) : List Char × Option Error :=
  match Parse uri with
  | .error err => ([], some err)
  | .ok u => (c.sign u, none)

/-- The loop `for k, v := range params { qs.Add(k, fmt.Sprintf("%v", v)) }`. -/
def addParams (qs : Values) : Params → Values
  | [] => qs
  | (k, v) :: rest => addParams (qs.Add k (Sprintv v)) rest

/-- The URL value `URL` builds before it prints or signs it (lines 37-51). -/
def builtURL (c : Client) (path : List Char) (params : Params) : URL :=
  { URL.zero with
    Scheme := if c.HTTPS then "https".toList else "http".toList,
    Host := c.Host,
    Path := if path = [] then ['/'] else path,
    RawQuery := (addParams [] params).Encode }

/-- The method `Client.URL`: the returned string and error (`none` is nil). -/
def Client.URL (c : Client) (path : List Char) (params : Params) : List Char × Option Error :=
  if c.Secret = [] then ((builtURL c path params).String, none)
  else (c.sign (builtURL c path params), none)

/-! ## Auxiliary definitions for the properties -/

/-- A client used in the examples (the one of `libpixel_test.go`). -/
def testClient : Client :=
  { Host := "test.libpx.com".toList, HTTPS := false, Secret := "LibPixel".toList }

/-- The URL `sign` works on after defaulting the path (lines 61-63). -/
def pathDefaulted (u : URL) : URL :=
  { u with Path := if u.Path = [] then ['/'] else u.Path }

/-- One entry of the query string: percent-encoded name, "=", percent-encoded
string form of the value. -/
def queryPair (kv : List Char × Value) : List Char :=
  QueryEscape kv.1 ++ '=' :: QueryEscape (Sprintv kv.2)

/-- The query string as the specification words it: the name=value pairs of
the entries `sorted` (the map entries in ascending order of name), joined by "&". -/
def canonicalQuery (sorted : Params) : List Char :=
  List.intercalate "&".toList (sorted.map queryPair)

/-- Strictly ascending byte-wise lexicographic order of the names. -/
def NamesAscending (l : Params) : Prop :=
  l.Pairwise fun a b => strLE a.1 b.1 = true ∧ a.1 ≠ b.1

/-- The buffer of `Values.Encode` after the entries `l`, each with one value. -/
def appendPairs (buf : List Char) (l : Params) : List Char :=
  l.foldl (fun b kv => (if b ≠ [] then b ++ ['&'] else b) ++ queryPair kv) buf

/-- The entries of a parameter map in the order `Values.Encode` writes them. -/
def sortedParams (params : Params) : Params :=
  params.insertionSort fun a b => strLE a.1 b.1 = true

/-- A signature value: exactly 40 characters, each one of 0-9 or a-f. -/
def IsSignatureValue (sig : List Char) : Prop :=
  sig.length = 40 ∧ ∀ ch ∈ sig, ch ∈ "0123456789abcdef".toList

/-- What `URL.String` prints for the fragment: nothing, or "#" and the escaped fragment. -/
def fragmentSuffix (u : URL) : List Char :=
  if u.Fragment = [] then [] else "#".toList ++ u.EscapedFragment

/-- A URL scheme as `getScheme` accepts it: a letter followed by letters,
digits, '+', '-' and '.'. -/
def validScheme (scheme : List Char) : Bool :=
  match scheme with
  | [] => false
  | c :: cs =>
    (('a' ≤ c && c ≤ 'z') || ('A' ≤ c && c ≤ 'Z'))
      && cs.all fun d =>
        (('a' ≤ d && d ≤ 'z') || ('A' ≤ d && d ≤ 'Z'))
          || (('0' ≤ d && d ≤ '9') || d = '+' || d = '-' || d = '.')

/-- The parameter map read from decoded query values: every name with its
first value, as a string. -/
def decodedParams (v : Values) : Params :=
  v.map fun e => (e.1, Value.str (e.2.headD []))

/-- Whether a parameter value is a Go string. -/
def Value.isString : Value → Bool
  | .str _ => true
  | _ => false

/-! # Properties -/

/-! ## Printing a signed URL -/

theorem pathDefaulted_of_ne {u : URL} (h : u.Path ≠ []) : pathDefaulted u = u := by
  simp [pathDefaulted, h]

theorem signedURL_rawQuery (c : Client) (u : URL) :
    (signedURL c u).RawQuery =
      (if u.RawQuery ≠ [] then u.RawQuery ++ ['&'] else []) ++ "signature=".toList
        ++ signature c u := by
  unfold signedURL
  by_cases h : u.RawQuery = [] <;> simp [h]

theorem signedURL_rawQuery_ne_nil (c : Client) (u : URL) : (signedURL c u).RawQuery ≠ [] := by
  rw [signedURL_rawQuery]
  simp

/-- What `sign` returns: the text before the query of the path-defaulted URL,
"?", the extended raw query, and the fragment when there is one. -/
theorem sign_eq (c : Client) (u : URL) :
    c.sign u = (pathDefaulted u).stringHead ++ '?' :: (signedURL c u).RawQuery
      ++ (if u.Fragment ≠ [] then '#' :: u.EscapedFragment else []) := by
  have h := signedURL_rawQuery_ne_nil c u
  unfold Client.sign URL.String
  rw [if_pos (Or.inr h)]
  rfl

theorem string_of_query {u : URL} (hq : u.RawQuery ≠ []) (hf : u.Fragment = []) :
    u.String = u.stringHead ++ '?' :: u.RawQuery := by
  unfold URL.String
  simp [hq, hf]

theorem string_of_no_query {u : URL} (hq : u.RawQuery = []) (hforce : u.ForceQuery = false)
    (hf : u.Fragment = []) : u.String = u.stringHead := by
  unfold URL.String
  simp [hq, hf, hforce]

/-! ## C1 -/

/-- C1, as stated, fails: "HTTP://h/p?q=1" parses with path "/p", query "q=1"
and no fragment, yet the signed URL does not even begin with the input (the
scheme is printed in lower case). -/
theorem C1_counterexample :
    Parse "HTTP://h/p?q=1".toList
        = .ok { URL.zero with Scheme := "http".toList, Host := "h".toList,
                              Path := "/p".toList, RawQuery := "q=1".toList }
      ∧ (testClient.Sign "HTTP://h/p?q=1".toList).2 = none
      ∧ ¬ ("HTTP://h/p?q=1".toList <+: (testClient.Sign "HTTP://h/p?q=1".toList).1) := by
  decide

/-- C1 (amended): for every client and every URL string `u` that parses to `p`
with a non-empty path, a non-empty raw query and no fragment, and that is
already written the way the URL library prints it (`p.String = u`), `Sign u`
succeeds and returns `u` followed by "&signature=" and the lowercase hex
HMAC-SHA1, keyed by the secret, of path + "?" + raw query. -/
theorem C1_sign_appends_to_query (c : Client) (u : List Char) (p : URL)
    (hparse : Parse u = .ok p) (hpath : p.Path ≠ []) (hquery : p.RawQuery ≠ [])
    (hfrag : p.Fragment = []) (hprint : p.String = u) :
    c.Sign u = (u ++ "&signature=".toList
      ++ hexLower (hmacSha1 (c.Secret.map Char.toNat)
          ((p.Path ++ "?".toList ++ p.RawQuery).map Char.toNat)), none) := by
  have hs : c.sign p = p.String ++ "&signature=".toList ++ signature c p := by
    rw [sign_eq, signedURL_rawQuery, pathDefaulted_of_ne hpath, string_of_query hquery hfrag]
    simp [hquery, hfrag]
  have hsig : signature c p = hexLower (hmacSha1 (c.Secret.map Char.toNat)
      ((p.Path ++ "?".toList ++ p.RawQuery).map Char.toNat)) := by
    simp [signature, stringToSign, hpath, hquery]
  simp only [Client.Sign, hparse, hs, hsig, hprint]

/-- C1 (amended) at the URL of `TestSignAppendsSignatureToExistingQueryString`. -/
theorem C1_sign_appends_to_query_witness :
    testClient.Sign "http://test.libpx.com/images/2.jpg?width=400".toList
      = ("http://test.libpx.com/images/2.jpg?width=400".toList ++ "&signature=".toList
          ++ hexLower (hmacSha1 (testClient.Secret.map Char.toNat)
              (("/images/2.jpg".toList ++ "?".toList ++ "width=400".toList).map Char.toNat)),
         none) :=
  C1_sign_appends_to_query testClient "http://test.libpx.com/images/2.jpg?width=400".toList
    { URL.zero with Scheme := "http".toList, Host := "test.libpx.com".toList,
                    Path := "/images/2.jpg".toList, RawQuery := "width=400".toList }
    (by decide) (by decide) (by decide) (by decide) (by decide)

/-! ## Facts about the parser -/

theorem cut_of_not_mem {sep : Char} {s : List Char} (h : sep ∉ s) : cut sep s = (s, [], false) := by
  induction s with
  | nil => rfl
  | cons c cs ih =>
    have hc : c ≠ sep := fun e => h (by simp [e])
    have hcs : sep ∉ cs := fun e => h (by simp [e])
    simp [cut, hc, ih hcs]

theorem cut_append_of_not_mem {sep : Char} {s : List Char} (t : List Char) (h : sep ∉ s) :
    cut sep (s ++ sep :: t) = (s, t, true) := by
  induction s with
  | nil => simp [cut]
  | cons c cs ih =>
    have hc : c ≠ sep := fun e => h (by simp [e])
    have hcs : sep ∉ cs := fun e => h (by simp [e])
    simp [cut, hc, ih hcs]

/-- Without a '#', `Parse` is `parse` with the error wrapped. -/
theorem Parse_of_no_hash {u : List Char} (h : '#' ∉ u) :
    Parse u = match parse u false with
      | .error e => .error { Op := "parse".toList, URL := u, Err := e }
      | .ok url => .ok url := by
  unfold Parse
  rw [cut_of_not_mem h]
  cases parse u false <;> simp

/-- With a '#', `Parse` parses what precedes it and then sets the fragment. -/
theorem Parse_hash {u : List Char} (f : List Char) (h : '#' ∉ u) :
    Parse (u ++ '#' :: f) = match parse u false with
      | .error e => .error { Op := "parse".toList, URL := u, Err := e }
      | .ok url =>
        if f = [] then .ok url
        else match url.setFragment f with
          | .error e => .error { Op := "parse".toList, URL := u ++ '#' :: f, Err := e }
          | .ok url => .ok url := by
  unfold Parse
  rw [cut_append_of_not_mem f h]

theorem getSchemeAux_rest (raw : List Char) :
    ∀ (cs : List Char) (i : Nat) (s r : List Char),
      getSchemeAux raw i cs = .ok (s, r) → r = raw ∨ r <:+ cs := by
  intro cs
  induction cs with
  | nil =>
    intro i s r h
    simp [getSchemeAux] at h
    exact Or.inl h.2.symm
  | cons c cs ih =>
    intro i s r h
    unfold getSchemeAux at h
    split at h
    · exact (ih _ _ _ h).imp id (fun h => h.trans (List.suffix_cons c cs))
    · split at h
      · split at h
        · simp at h
          exact Or.inl h.2.symm
        · exact (ih _ _ _ h).imp id (fun h => h.trans (List.suffix_cons c cs))
      · split at h
        · split at h
          · simp at h
          · simp at h
            exact Or.inr (h.2 ▸ List.suffix_cons c cs)
        · simp at h
          exact Or.inl h.2.symm

theorem getScheme_rest {raw s r : List Char} (h : getScheme raw = .ok (s, r)) : r <:+ raw := by
  rcases getSchemeAux_rest raw raw 0 s r h with h | h
  · exact h ▸ List.suffix_refl _
  · exact h

/-- The fields `setPath` leaves alone. -/
theorem setPath_frame {u p : URL} {s : List Char} (h : u.setPath s = .ok p) :
    p.RawQuery = u.RawQuery ∧ p.ForceQuery = u.ForceQuery ∧ p.Fragment = u.Fragment
      ∧ p.RawFragment = u.RawFragment := by
  unfold URL.setPath at h
  split at h
  · simp at h
  · simp at h
    subst h
    simp

/-- The fields `parseRest` leaves alone. -/
theorem parseRest_frame {u p : URL} {rest : List Char} {v : Bool}
    (h : parseRest u rest v = .ok p) :
    p.RawQuery = u.RawQuery ∧ p.ForceQuery = u.ForceQuery ∧ p.Fragment = u.Fragment
      ∧ p.RawFragment = u.RawFragment := by
  unfold parseRest at h
  split at h
  · simp at h; subst h; simp
  · split at h
    · simp at h
    · split at h
      · simp at h
      · split at h
        · split at h
          · simp at h
          · simpa using setPath_frame h
        · split at h
          · simpa using setPath_frame h
          · exact setPath_frame h

/-- A URL string without '?' parses to a URL without query. -/
theorem parse_no_query {u : List Char} {p : URL} (h : parse u false = .ok p) (hq : '?' ∉ u) :
    p.RawQuery = [] ∧ p.ForceQuery = false ∧ p.Fragment = [] ∧ p.RawFragment = [] := by
  unfold parse at h
  split at h
  · simp at h
  · split at h
    · simp at h
    · split at h
      · simp at h; subst h; simp [URL.zero]
      · split at h
        · simp at h
        · rename_i scheme rest hs
          have hrest : '?' ∉ rest := fun hm => hq ((getScheme_rest hs).subset hm)
          have hcount : rest.count '?' = 0 := List.count_eq_zero.2 hrest
          rw [if_neg (by simp [hcount]), cut_of_not_mem hrest] at h
          simpa [URL.zero] using parseRest_frame h

theorem Parse_no_query {u : List Char} {p : URL} (h : Parse u = .ok p) (hq : '?' ∉ u)
    (hh : '#' ∉ u) :
    p.RawQuery = [] ∧ p.ForceQuery = false ∧ p.Fragment = [] ∧ p.RawFragment = [] := by
  rw [Parse_of_no_hash hh] at h
  split at h
  · simp at h
  · rename_i url hp
    simp at h
    subst h
    exact parse_no_query hp hq

/-! ## C2 -/

/-- C2, as stated, fails: "http://h/a b" has the form scheme://host/path, no
'?' and no '#', and parses, yet the signed URL is not the input followed by
anything: the space of the path is printed as "%20". -/
theorem C2_counterexample :
    Parse "http://h/a b".toList
        = .ok { URL.zero with Scheme := "http".toList, Host := "h".toList,
                              Path := "/a b".toList, RawPath := "/a b".toList }
      ∧ (testClient.Sign "http://h/a b".toList).2 = none
      ∧ "http://h/a%20b?signature=".toList <+: (testClient.Sign "http://h/a b".toList).1
      ∧ ¬ ("http://h/a b".toList <+: (testClient.Sign "http://h/a b".toList).1) := by
  decide

/-- C2 (amended): for every client and every URL string `u` without '?' and
'#' that parses to `p` with a non-empty path and that is already written the
way the URL library prints it (`p.String = u`), `Sign u` succeeds and returns
`u` followed by "?signature=" and the lowercase hex HMAC-SHA1, keyed by the
secret, of the path alone. -/
theorem C2_sign_adds_query (c : Client) (u : List Char) (p : URL)
    (hparse : Parse u = .ok p) (hq : '?' ∉ u) (hh : '#' ∉ u) (hpath : p.Path ≠ [])
    (hprint : p.String = u) :
    c.Sign u = (u ++ "?signature=".toList
      ++ hexLower (hmacSha1 (c.Secret.map Char.toNat) (p.Path.map Char.toNat)), none) := by
  obtain ⟨hrq, hforce, hfrag, -⟩ := Parse_no_query hparse hq hh
  have hs : c.sign p = p.String ++ "?signature=".toList ++ signature c p := by
    rw [sign_eq, signedURL_rawQuery, pathDefaulted_of_ne hpath,
      string_of_no_query hrq hforce hfrag]
    simp [hrq, hfrag]
  have hsig : signature c p
      = hexLower (hmacSha1 (c.Secret.map Char.toNat) (p.Path.map Char.toNat)) := by
    simp [signature, stringToSign, hpath, hrq]
  simp only [Client.Sign, hparse, hs, hsig, hprint]

/-- C2 (amended) at the URL of `TestSignAddsQueryStringWithSignature`. -/
theorem C2_sign_adds_query_witness :
    testClient.Sign "http://test.libpx.com/images/1.jpg".toList
      = ("http://test.libpx.com/images/1.jpg".toList ++ "?signature=".toList
          ++ hexLower (hmacSha1 (testClient.Secret.map Char.toNat)
              ("/images/1.jpg".toList.map Char.toNat)), none) :=
  C2_sign_adds_query testClient "http://test.libpx.com/images/1.jpg".toList
    { URL.zero with Scheme := "http".toList, Host := "test.libpx.com".toList,
                    Path := "/images/1.jpg".toList }
    (by decide) (by decide) (by decide) (by decide) (by decide)

/-! ## Facts about `Values` -/

theorem encodeValues_ne_nil (ke : List Char) :
    ∀ (vs : List (List Char)) (buf : List Char), buf ≠ [] ∨ vs ≠ [] →
      encodeValues ke vs buf ≠ [] := by
  intro vs
  induction vs with
  | nil => intro buf h; simpa [encodeValues] using h
  | cons v vs ih =>
    intro buf _
    unfold encodeValues
    exact ih _ (Or.inl (by simp))

theorem encodeKeys_ne_nil (v : Values) :
    ∀ (ks : List (List Char)) (buf : List Char), buf ≠ [] → encodeKeys v ks buf ≠ [] := by
  intro ks
  induction ks with
  | nil => intro buf h; simpa [encodeKeys] using h
  | cons k ks ih =>
    intro buf h
    unfold encodeKeys
    exact ih _ (encodeValues_ne_nil _ _ _ (Or.inl h))

theorem Values.get_ne_nil {v : Values} (hv : ∀ e ∈ v, e.2 ≠ []) {k : List Char}
    (hk : k ∈ v.map Prod.fst) : v.get k ≠ [] := by
  induction v with
  | nil => simp at hk
  | cons e rest ih =>
    obtain ⟨k', vs⟩ := e
    unfold Values.get
    by_cases h : k' = k
    · simpa [h] using hv (k', vs) (by simp)
    · simp only [h, if_false]
      refine ih (fun e he => hv e (by simp [he])) ?_
      simp at hk
      rcases hk with hk | hk
      · exact absurd hk.symm h
      · simpa using hk

theorem Values.Add_ne_nil (v : Values) (k x : List Char) : v.Add k x ≠ [] := by
  cases v with
  | nil => simp [Values.Add]
  | cons e rest =>
    obtain ⟨k', vs⟩ := e
    unfold Values.Add
    split <;> simp

theorem Values.Add_values {v : Values} (hv : ∀ e ∈ v, e.2 ≠ []) (k x : List Char) :
    ∀ e ∈ v.Add k x, e.2 ≠ [] := by
  induction v with
  | nil => simp [Values.Add]
  | cons e rest ih =>
    obtain ⟨k', vs⟩ := e
    unfold Values.Add
    split
    · intro e he
      simp at he
      rcases he with he | he
      · subst he; simp
      · exact hv e (by simp [he])
    · intro e he
      simp at he
      rcases he with he | he
      · subst he; exact hv (k', vs) (by simp)
      · exact ih (fun e he => hv e (by simp [he])) e he

theorem addParams_values :
    ∀ (params : Params) (qs : Values), (∀ e ∈ qs, e.2 ≠ []) →
      ∀ e ∈ addParams qs params, e.2 ≠ [] := by
  intro params
  induction params with
  | nil => intro qs h; simpa [addParams] using h
  | cons kv rest ih =>
    intro qs h
    obtain ⟨k, x⟩ := kv
    unfold addParams
    exact ih _ (Values.Add_values h _ _)

theorem addParams_ne_nil :
    ∀ (params : Params) (qs : Values), qs ≠ [] ∨ params ≠ [] → addParams qs params ≠ [] := by
  intro params
  induction params with
  | nil => intro qs h; simpa [addParams] using h
  | cons kv rest ih =>
    intro qs _
    obtain ⟨k, x⟩ := kv
    unfold addParams
    exact ih _ (Or.inl (Values.Add_ne_nil _ _ _))

theorem Values.Encode_ne_nil {v : Values} (hne : v ≠ []) (hv : ∀ e ∈ v, e.2 ≠ []) :
    v.Encode ≠ [] := by
  unfold Values.Encode
  have hperm := List.perm_insertionSort (fun a b => strLE a b = true) (v.map Prod.fst)
  cases hs : List.insertionSort (fun a b => strLE a b = true) (v.map Prod.fst) with
  | nil =>
    rw [hs] at hperm
    have := hperm.length_eq
    simp at this
    exact absurd (List.length_eq_zero.1 this.symm) hne
  | cons k ks =>
    rw [hs] at hperm
    have hk : k ∈ v.map Prod.fst := hperm.subset (by simp)
    unfold encodeKeys
    exact encodeKeys_ne_nil _ _ _ (encodeValues_ne_nil _ _ _ (Or.inr (Values.get_ne_nil hv hk)))

/-- The canonical query string is empty exactly for an empty parameter map. -/
theorem Encode_addParams_eq_nil (params : Params) :
    (addParams [] params).Encode = [] ↔ params = [] := by
  constructor
  · intro h
    by_contra hne
    exact Values.Encode_ne_nil (addParams_ne_nil _ _ (Or.inr hne))
      (addParams_values _ _ (by simp)) h
  · intro h
    subst h
    rfl

theorem builtURL_path_ne_nil (c : Client) (path : List Char) (params : Params) :
    (builtURL c path params).Path ≠ [] := by
  unfold builtURL
  by_cases h : path = [] <;> simp [h]

theorem builtURL_string (c : Client) (path : List Char) (params : Params) :
    (builtURL c path params).String = (builtURL c path []).stringHead
      ++ (if params = [] then [] else '?' :: (addParams [] params).Encode) := by
  have h := Encode_addParams_eq_nil params
  by_cases hp : params = []
  · subst hp
    simp [URL.String, builtURL, URL.zero, addParams, Values.Encode, encodeKeys]
  · have hq : (builtURL c path params).RawQuery ≠ [] := fun e => hp (h.1 e)
    rw [string_of_query hq rfl, if_neg hp]
    rfl

/-! ## C3 -/

/-- C3: with a non-empty secret, `URL` returns what the same client without
secret returns, then "?" (empty parameter map) or "&", then "signature=" and
the lowercase hex HMAC-SHA1, keyed by the secret, of the path ("/" when empty)
followed by "?" and the canonical query string when that is non-empty. -/
theorem C3_URL_signed (c : Client) (hs : c.Secret ≠ []) (path : List Char) (params : Params) :
    c.URL path params =
      ((({ c with Secret := [] } : Client).URL path params).1
        ++ (if params = [] then "?".toList else "&".toList) ++ "signature=".toList
        ++ hexLower (hmacSha1 (c.Secret.map Char.toNat)
            (((if path = [] then "/".toList else path)
              ++ (if (addParams [] params).Encode ≠ []
                    then "?".toList ++ (addParams [] params).Encode else [])).map Char.toNat)),
       none) := by
  have h := Encode_addParams_eq_nil params
  have hsig : signature c (builtURL c path params)
      = hexLower (hmacSha1 (c.Secret.map Char.toNat)
            (((if path = [] then "/".toList else path)
              ++ (if (addParams [] params).Encode ≠ []
                    then "?".toList ++ (addParams [] params).Encode else [])).map Char.toNat)) := by
    unfold signature stringToSign builtURL
    by_cases hp : path = [] <;> by_cases he : (addParams [] params).Encode = [] <;> simp [hp, he]
  have hu : (({ c with Secret := [] } : Client).URL path params).1
      = (builtURL c path params).String := by
    simp [Client.URL, builtURL]
  rw [hu, ← hsig]
  simp only [Client.URL, if_neg hs]
  rw [sign_eq, signedURL_rawQuery, pathDefaulted_of_ne (builtURL_path_ne_nil _ _ _),
    builtURL_string]
  by_cases hp : params = []
  · subst hp
    simp [builtURL, URL.zero, addParams, Values.Encode, encodeKeys]
  · have hq : (builtURL c path params).RawQuery ≠ [] := fun e => hp (h.1 e)
    have hq' : (addParams [] params).Encode ≠ [] := hq
    have hh : (builtURL c path params).stringHead = (builtURL c path []).stringHead := rfl
    simp [hp, hq, hh]
    simp [builtURL, URL.zero]

set_option maxRecDepth 100000 in
/-- C3 at `TestURLSignsTheRequestWhenSecretIsSet`: the value the test expects. -/
theorem C3_URL_signed_witness :
    testClient.URL "/images/1.jpg".toList [("width".toList, .int 600)]
      = ("http://test.libpx.com/images/1.jpg?width=600&signature=dfcaec7b88d53a7a932e8a6a00d10b4f9ff1336b".toList,
         none) :=
  (C3_URL_signed testClient (by decide) "/images/1.jpg".toList [("width".toList, .int 600)]).trans
    (by decide)

/-! ## Facts about the canonical query string -/


theorem strLE_refl (a : List Char) : strLE a a = true := by
  induction a with
  | nil => rfl
  | cons c cs ih => simp [strLE, ih]

theorem strLE_total (a b : List Char) : strLE a b = true ∨ strLE b a = true := by
  induction a generalizing b with
  | nil => exact Or.inl rfl
  | cons c cs ih =>
    cases b with
    | nil => exact Or.inr rfl
    | cons d ds =>
      simp only [strLE, Bool.or_eq_true, decide_eq_true_eq, Bool.and_eq_true]
      rcases lt_trichotomy c d with h | h | h
      · exact Or.inl (Or.inl h)
      · subst h
        rcases ih ds with h | h
        · exact Or.inl (Or.inr ⟨rfl, h⟩)
        · exact Or.inr (Or.inr ⟨rfl, h⟩)
      · exact Or.inr (Or.inl h)

theorem strLE_trans {a b c : List Char} (hab : strLE a b = true) (hbc : strLE b c = true) :
    strLE a c = true := by
  induction a generalizing b c with
  | nil => rfl
  | cons x xs ih =>
    cases b with
    | nil => simp [strLE] at hab
    | cons y ys =>
      cases c with
      | nil => simp [strLE] at hbc
      | cons z zs =>
        simp only [strLE, Bool.or_eq_true, decide_eq_true_eq, Bool.and_eq_true] at hab hbc ⊢
        rcases hab with h1 | ⟨h1, h1'⟩ <;> rcases hbc with h2 | ⟨h2, h2'⟩
        · exact Or.inl (lt_trans h1 h2)
        · exact Or.inl (h2 ▸ h1)
        · exact Or.inl (h1 ▸ h2)
        · exact Or.inr ⟨h1.trans h2, ih h1' h2'⟩

theorem strLE_antisymm {a b : List Char} (hab : strLE a b = true) (hba : strLE b a = true) :
    a = b := by
  induction a generalizing b with
  | nil =>
    cases b with
    | nil => rfl
    | cons y ys => simp [strLE] at hba
  | cons x xs ih =>
    cases b with
    | nil => simp [strLE] at hab
    | cons y ys =>
      simp only [strLE, Bool.or_eq_true, decide_eq_true_eq, Bool.and_eq_true] at hab hba
      rcases hab with h1 | ⟨h1, h1'⟩ <;> rcases hba with h2 | ⟨h2, h2'⟩
      · exact absurd h1 (lt_asymm h2)
      · exact absurd h1 (h2 ▸ lt_irrefl _)
      · exact absurd h2 (h1 ▸ lt_irrefl _)
      · rw [h1, ih h1' h2']


theorem Values.Add_of_not_mem {v : Values} {k : List Char} (x : List Char)
    (hk : k ∉ v.map Prod.fst) : v.Add k x = v ++ [(k, [x])] := by
  induction v with
  | nil => rfl
  | cons e rest ih =>
    obtain ⟨k', vs⟩ := e
    simp at hk
    have h1 : k' ≠ k := fun e => hk.1 e.symm
    have h2 : k ∉ rest.map Prod.fst := by simpa using hk.2
    simp [Values.Add, h1, ih h2]

/-- For a map (distinct keys) the loop of `URL` adds one entry per parameter. -/
theorem addParams_of_nodup :
    ∀ (params : Params) (qs : Values), (params.map Prod.fst).Nodup →
      (∀ k ∈ params.map Prod.fst, k ∉ qs.map Prod.fst) →
      addParams qs params = qs ++ params.map (fun kv => (kv.1, [Sprintv kv.2])) := by
  intro params
  induction params with
  | nil => intro qs _ _; simp [addParams]
  | cons kv rest ih =>
    intro qs hnd hdis
    obtain ⟨k, x⟩ := kv
    simp only [List.map_cons, List.nodup_cons] at hnd
    have hk : k ∉ qs.map Prod.fst := hdis k (List.mem_cons_self _ _)
    unfold addParams
    rw [Values.Add_of_not_mem _ hk, ih _ hnd.2]
    · simp
    · intro k' hk' hmem
      simp only [List.map_append, List.map_cons, List.map_nil, List.mem_append,
        List.mem_singleton] at hmem
      rcases hmem with hmem | hmem
      · exact hdis k' (by simp only [List.map_cons, List.mem_cons]; exact Or.inr hk') hmem
      · exact hnd.1 (hmem ▸ hk')

theorem Values.get_of_mem :
    ∀ (params : Params), (params.map Prod.fst).Nodup → ∀ kv ∈ params,
      Values.get (params.map (fun kv => (kv.1, [Sprintv kv.2]))) kv.1 = [Sprintv kv.2] := by
  intro params
  induction params with
  | nil => intro _ kv h; simp at h
  | cons e rest ih =>
    intro hnd kv hkv
    simp only [List.map_cons, List.nodup_cons] at hnd
    simp only [List.mem_cons] at hkv
    simp only [List.map_cons, Values.get]
    rcases hkv with h | h
    · subst h; simp
    · have hne : e.1 ≠ kv.1 := fun e' => hnd.1 (e' ▸ List.mem_map_of_mem Prod.fst h)
      simp only [hne, if_false]
      exact ih hnd.2 kv h

theorem encodeKeys_pairs (v : Values) :
    ∀ (l : Params) (buf : List Char), (∀ kv ∈ l, v.get kv.1 = [Sprintv kv.2]) →
      encodeKeys v (l.map Prod.fst) buf = appendPairs buf l := by
  intro l
  induction l with
  | nil => intro buf _; rfl
  | cons kv rest ih =>
    intro buf h
    simp only [List.map_cons, encodeKeys, appendPairs, List.foldl_cons]
    rw [h kv (by simp), ih _ (fun kv' hkv' => h kv' (by simp [hkv']))]
    simp [encodeValues, appendPairs, queryPair]

theorem queryPair_ne_nil (kv : List Char × Value) : queryPair kv ≠ [] := by
  simp [queryPair]

theorem appendPairs_of_ne_nil :
    ∀ (l : Params) (buf : List Char), buf ≠ [] →
      appendPairs buf l = buf ++ l.flatMap (fun kv => '&' :: queryPair kv) := by
  intro l
  induction l with
  | nil => intro buf _; simp [appendPairs]
  | cons kv rest ih =>
    intro buf hb
    have hstep : appendPairs buf (kv :: rest)
        = appendPairs (buf ++ ['&'] ++ queryPair kv) rest := by
      simp [appendPairs, hb]
    rw [hstep, ih _ (by simp)]
    simp

theorem canonicalQuery_cons (kv : List Char × Value) (rest : Params) :
    canonicalQuery (kv :: rest)
      = queryPair kv ++ rest.flatMap (fun kv => '&' :: queryPair kv) := by
  induction rest generalizing kv with
  | nil => simp [canonicalQuery, List.intercalate]
  | cons kv' rest' ih =>
    have h : canonicalQuery (kv :: kv' :: rest')
        = queryPair kv ++ '&' :: canonicalQuery (kv' :: rest') := by
      simp [canonicalQuery, List.intercalate]
    rw [h, ih]
    simp

theorem appendPairs_nil (l : Params) : appendPairs [] l = canonicalQuery l := by
  cases l with
  | nil => rfl
  | cons kv rest =>
    have hstep : appendPairs [] (kv :: rest) = appendPairs (queryPair kv) rest := by
      simp [appendPairs]
    rw [hstep, appendPairs_of_ne_nil rest _ (queryPair_ne_nil kv), canonicalQuery_cons]

theorem sortedParams_perm (params : Params) : (sortedParams params).Perm params :=
  List.perm_insertionSort _ _

theorem sortedParams_keys (params : Params) :
    (sortedParams params).map Prod.fst
      = (params.map Prod.fst).insertionSort fun a b => strLE a b = true :=
  List.map_insertionSort (fun a b : List Char × Value => strLE a.1 b.1 = true)
    (fun a b => strLE a b = true) Prod.fst params (fun _ _ _ _ => Iff.rfl)

theorem sortedParams_ascending {params : Params} (hnd : (params.map Prod.fst).Nodup) :
    NamesAscending (sortedParams params) := by
  haveI : IsTotal (List Char × Value) (fun a b => strLE a.1 b.1 = true) :=
    ⟨fun a b => strLE_total a.1 b.1⟩
  haveI : IsTrans (List Char × Value) (fun a b => strLE a.1 b.1 = true) :=
    ⟨fun _ _ _ => strLE_trans⟩
  have hs : (sortedParams params).Pairwise (fun a b => strLE a.1 b.1 = true) :=
    List.sorted_insertionSort _ params
  have hnd' : ((sortedParams params).map Prod.fst).Nodup :=
    ((sortedParams_perm params).map Prod.fst).nodup_iff.2 hnd
  have hne : (sortedParams params).Pairwise (fun a b => a.1 ≠ b.1) :=
    List.pairwise_map.1 hnd'
  exact hs.and hne

/-- The canonical query string of a parameter map with distinct names. -/
theorem Encode_addParams {params : Params} (hnd : (params.map Prod.fst).Nodup) :
    (addParams [] params).Encode = canonicalQuery (sortedParams params) := by
  rw [addParams_of_nodup params [] hnd (fun k _ => List.not_mem_nil k)]
  unfold Values.Encode
  simp only [List.nil_append, List.map_map]
  have hkeys : List.map (Prod.fst ∘ (fun kv : List Char × Value => (kv.1, [Sprintv kv.2]))) params
      = params.map Prod.fst := rfl
  rw [hkeys, ← sortedParams_keys, encodeKeys_pairs, appendPairs_nil]
  intro kv hkv
  exact Values.get_of_mem params hnd kv ((sortedParams_perm params).subset hkv)

/-- Two lists of entries with the same entries, both in strictly ascending
order of name, are equal. -/
theorem ascending_unique {l₁ l₂ : Params} (hp : l₁.Perm l₂) (h₁ : NamesAscending l₁)
    (h₂ : NamesAscending l₂) : l₁ = l₂ := by
  induction l₁ generalizing l₂ with
  | nil => exact hp.nil_eq
  | cons a l₁ ih =>
    cases l₂ with
    | nil => exact absurd hp.symm.nil_eq (by simp)
    | cons b l₂ =>
      have ha : NamesAscending l₁ := (List.pairwise_cons.1 h₁).2
      have hb : NamesAscending l₂ := (List.pairwise_cons.1 h₂).2
      have hab : a = b := by
        have hmem_a : a ∈ b :: l₂ := hp.subset (List.mem_cons_self _ _)
        have hmem_b : b ∈ a :: l₁ := hp.symm.subset (List.mem_cons_self _ _)
        rcases List.mem_cons.1 hmem_a with h | h
        · exact h
        · rcases List.mem_cons.1 hmem_b with h' | h'
          · exact h'.symm
          · have hba := (List.pairwise_cons.1 h₂).1 a h
            have hab := (List.pairwise_cons.1 h₁).1 b h'
            exact absurd (strLE_antisymm hab.1 hba.1) hab.2
      subst hab
      rw [ih (List.Perm.cons_inv hp) ha hb]

theorem sortedParams_of_perm {params params' : Params} (hnd : (params.map Prod.fst).Nodup)
    (hp : params'.Perm params) : sortedParams params' = sortedParams params := by
  have hnd' : (params'.map Prod.fst).Nodup := (hp.map Prod.fst).nodup_iff.2 hnd
  have h1 := sortedParams_ascending hnd
  have h2 := sortedParams_ascending hnd'
  have hperm : (sortedParams params').Perm (sortedParams params) :=
    ((sortedParams_perm params').trans hp).trans (sortedParams_perm params).symm
  exact ascending_unique hperm h2 h1

/-! ## Facts about escaping -/

theorem upperhex_mem (n : Nat) : upperhex n ∈ "0123456789ABCDEF".toList := by
  unfold upperhex
  by_cases h : n < 16
  · interval_cases n <;> decide
  · have : "0123456789ABCDEF".toList.length ≤ n := by simpa using h
    rw [List.getD_eq_default _ _ this]
    decide

/-- In a host or a path, `escape` never writes a '?'. -/
theorem escape_no_question (s : List Char) (mode : encoding)
    (hm : mode = .encodeHost ∨ mode = .encodePath) : '?' ∉ escape s mode := by
  have hq : mode ≠ .encodeQueryComponent := by rcases hm with h | h <;> simp [h]
  have hesc : shouldEscape '?' mode = true := by rcases hm with h | h <;> subst h <;> decide
  induction s with
  | nil => simp [escape]
  | cons c cs ih =>
    unfold escape
    rw [if_neg (fun h => hq h.2)]
    split
    · intro hmem
      simp only [List.mem_cons] at hmem
      rcases hmem with h | h | h | h
      · exact absurd h (by decide)
      · have := upperhex_mem (c.toNat >>> 4)
        rw [← h] at this
        exact absurd this (by decide)
      · have := upperhex_mem (c.toNat &&& 15)
        rw [← h] at this
        exact absurd this (by decide)
      · exact ih h
    · rename_i hc
      intro hmem
      simp only [List.mem_cons] at hmem
      rcases hmem with h | h
      · rw [← h, hesc] at hc
        exact hc rfl
      · exact ih h

theorem escape_path_slash (rest : List Char) :
    escape ('/' :: rest) .encodePath = '/' :: escape rest .encodePath := by
  simp [escape, shouldEscape, isAlnum]


/-- What `URL` prints before the query for a path that begins with "/". -/
theorem builtURL_stringHead (c : Client) (rest : List Char) (params : Params) :
    (builtURL c ('/' :: rest) params).stringHead
      = (if c.HTTPS then "https".toList else "http".toList) ++ "://".toList
          ++ escape c.Host .encodeHost ++ escape ('/' :: rest) .encodePath := by
  have hp : (builtURL c ('/' :: rest) params).EscapedPath = escape ('/' :: rest) .encodePath := by
    simp [URL.EscapedPath, builtURL, URL.zero]
  have ha : (builtURL c ('/' :: rest) params).authorityString
      = "//".toList ++ escape c.Host .encodeHost := by
    unfold URL.authorityString
    obtain ⟨host, https, secret⟩ := c
    by_cases hh : host = [] <;> cases https <;> simp [builtURL, URL.zero, hh, escape]
  unfold URL.stringHead
  rw [hp, escape_path_slash, ha]
  obtain ⟨host, https, secret⟩ := c
  cases https <;> simp [builtURL, URL.zero]

/-- Where the bytes that `URL.String` prints before the query come from. -/
theorem mem_stringHead {u : URL} {x : Char} (h : x ∈ u.stringHead) :
    x ∈ u.Scheme ∨ x = ':' ∨ x ∈ u.Opaque ∨ x ∈ u.authorityString ∨ x = '/' ∨ x = '.'
      ∨ x ∈ u.EscapedPath := by
  unfold URL.stringHead at h
  dsimp only at h
  split_ifs at h <;>
    simp only [List.mem_append, List.mem_cons, List.mem_singleton, List.not_mem_nil,
      List.append_nil, List.nil_append, or_false, false_or] at h <;> tauto

/-- What `URL` prints before the query never contains a '?'. -/
theorem builtURL_stringHead_no_question (c : Client) (path : List Char) (params : Params) :
    '?' ∉ (builtURL c path params).stringHead := by
  have h1 := escape_no_question c.Host .encodeHost (Or.inl rfl)
  have h2 : '?' ∉ (builtURL c path params).EscapedPath := by
    unfold URL.EscapedPath
    rw [if_neg (by simp [builtURL, URL.zero])]
    split
    · decide
    · exact escape_no_question _ .encodePath (Or.inr rfl)
  have ha : '?' ∉ (builtURL c path params).authorityString := by
    unfold URL.authorityString
    obtain ⟨host, https, secret⟩ := c
    by_cases hh : host = [] <;> by_cases hp : path = [] <;> cases https <;>
      simp [builtURL, URL.zero, hh, hp, escape] <;> simpa [builtURL] using h1
  have hs : '?' ∉ (builtURL c path params).Scheme := by
    obtain ⟨host, https, secret⟩ := c
    cases https <;> simp [builtURL]
  intro hmem
  rcases mem_stringHead hmem with h | h | h | h | h | h | h
  · exact hs h
  · exact absurd h (by decide)
  · simp [builtURL, URL.zero] at h
  · exact ha h
  · exact absurd h (by decide)
  · exact absurd h (by decide)
  · exact h2 h

/-! ## C4 -/

/-- C4: without a secret and for a non-empty parameter map (distinct names),
`URL` returns what it returns for no parameters, "?", and the query string: the
percent-encoded name=value pairs joined by "&" in strictly ascending
lexicographic order of name, each value in its string form; no '?' precedes
that query string, and the result is the same for every order in which the
map's entries are visited. -/
theorem C4_query_sorted (c : Client) (hs : c.Secret = []) (path : List Char) (params : Params)
    (hne : params ≠ []) (hnd : (params.map Prod.fst).Nodup) :
    (∃ sorted : Params, sorted.Perm params ∧ NamesAscending sorted
        ∧ (builtURL c path params).RawQuery = canonicalQuery sorted
        ∧ c.URL path params = ((c.URL path []).1 ++ "?".toList ++ canonicalQuery sorted, none))
      ∧ '?' ∉ (c.URL path []).1
      ∧ ∀ params' : Params, params'.Perm params → c.URL path params' = c.URL path params := by
  have hurl : ∀ ps : Params, c.URL path ps = ((builtURL c path ps).String, none) := by
    intro ps
    simp [Client.URL, hs]
  refine ⟨⟨sortedParams params, sortedParams_perm params, sortedParams_ascending hnd,
    Encode_addParams hnd, ?_⟩, ?_, ?_⟩
  · rw [hurl, hurl, builtURL_string, builtURL_string, if_neg hne, Encode_addParams hnd]
    simp
  · rw [hurl, builtURL_string]
    simpa using builtURL_stringHead_no_question c path []
  · intro params' hp
    have hnd' : (params'.map Prod.fst).Nodup := (hp.map Prod.fst).nodup_iff.2 hnd
    have hne' : params' ≠ [] := fun e => hne (by subst e; exact hp.symm.eq_nil)
    rw [hurl, hurl, builtURL_string, builtURL_string, if_neg hne, if_neg hne',
      Encode_addParams hnd, Encode_addParams hnd', sortedParams_of_perm hnd hp]

/-- C4 at `TestURLTurnsParamsIntoQueryString`: "height" is written before "width". -/
theorem C4_query_sorted_witness :
    ({ testClient with Secret := [] } : Client).URL "/images/101.jpg".toList
        [("width".toList, .int 200), ("height".toList, .int 400)]
      = ("http://test.libpx.com/images/101.jpg?height=400&width=200".toList, none) := by
  obtain ⟨sorted, hperm, hasc, -, h⟩ :=
    (C4_query_sorted { testClient with Secret := [] } rfl "/images/101.jpg".toList
      [("width".toList, .int 200), ("height".toList, .int 400)] (by decide) (by decide)).1
  have hs : sorted = [("height".toList, .int 400), ("width".toList, .int 200)] :=
    ascending_unique (hperm.trans (List.Perm.swap _ _ _)) hasc (by unfold NamesAscending; decide)
  rw [h, hs]
  decide

/-! ## C7 -/

/-- C7, as stated, fails: with host "a b" the result is "http://a%20b/p", not
"http://" followed by the host as given and the path. -/
theorem C7_counterexample :
    ({ Host := "a b".toList, HTTPS := false, Secret := [] } : Client).URL "/p".toList []
        = ("http://a%20b/p".toList, none)
      ∧ ({ Host := "a b".toList, HTTPS := false, Secret := [] } : Client).URL "/p".toList []
        ≠ ("http".toList ++ "://".toList ++ "a b".toList ++ escape "/p".toList .encodePath,
           none) := by
  decide

/-- C7 (amended): without a secret and for a path beginning with "/", `URL`
with nil or empty parameters (both the empty list here) returns exactly
scheme + "://" + the host percent-encoded as a URL host + the path
percent-encoded as a URL path, and the result contains no '?'. -/
theorem C7_URL_unsigned (c : Client) (hs : c.Secret = []) (rest : List Char) :
    c.URL ('/' :: rest) []
        = ((if c.HTTPS then "https".toList else "http".toList) ++ "://".toList
            ++ escape c.Host .encodeHost ++ escape ('/' :: rest) .encodePath, none)
      ∧ '?' ∉ (c.URL ('/' :: rest) []).1 := by
  have h : c.URL ('/' :: rest) []
      = ((if c.HTTPS then "https".toList else "http".toList) ++ "://".toList
          ++ escape c.Host .encodeHost ++ escape ('/' :: rest) .encodePath, none) := by
    simp only [Client.URL, hs, if_true]
    rw [builtURL_string, builtURL_stringHead]
    simp
  refine ⟨h, ?_⟩
  rw [h]
  have h1 := escape_no_question c.Host .encodeHost (Or.inl rfl)
  have h2 := escape_no_question ('/' :: rest) .encodePath (Or.inr rfl)
  cases c.HTTPS <;> simp [h1, h2]

/-- C7 (amended) at `TestURLConstructsURLForPath`. -/
theorem C7_URL_unsigned_witness :
    ({ testClient with Secret := [] } : Client).URL "/images/5.jpg".toList []
      = ("http://test.libpx.com/images/5.jpg".toList, none) :=
  (C7_URL_unsigned { testClient with Secret := [] } rfl "images/5.jpg".toList).1.trans
    (by decide)

/-! ## A bare trailing '?' -/

theorem getSchemeAux_append_question (raw : List Char) :
    ∀ (cs : List Char) (i : Nat), i + cs.length ≤ raw.length →
      getSchemeAux (raw ++ ['?']) i (cs ++ ['?'])
        = match getSchemeAux raw i cs with
          | .error e => .error e
          | .ok (s, r) => .ok (s, r ++ ['?']) := by
  intro cs
  induction cs with
  | nil =>
    intro i _
    simp [getSchemeAux]
  | cons c cs ih =>
    intro i hi
    have hi' : i + 1 + cs.length ≤ raw.length := by simp at hi; omega
    simp only [List.cons_append, getSchemeAux]
    split
    · exact ih _ hi'
    · split
      · split
        · rfl
        · exact ih _ hi'
      · split
        · split
          · rfl
          · have : i ≤ raw.length := by omega
            simp [List.take_append_of_le_length this]
        · rfl

theorem getScheme_append_question (raw : List Char) :
    getScheme (raw ++ ['?'])
      = match getScheme raw with
        | .error e => .error e
        | .ok (s, r) => .ok (s, r ++ ['?']) :=
  getSchemeAux_append_question raw raw 0 (by simp)

theorem parseRest_forceQuery (u : URL) (rest : List Char) (v : Bool) :
    parseRest { u with ForceQuery := true } rest v
      = match parseRest u rest v with
        | .error e => .error e
        | .ok p => .ok { p with ForceQuery := true } := by
  unfold parseRest
  dsimp only
  cases parseAuthority (cut '/' (List.drop 2 rest)).1 with
  | error e =>
    split_ifs <;>
      first
      | rfl
      | (unfold URL.setPath; generalize unescape _ encoding.encodePath = r; cases r <;> rfl)
  | ok uh =>
    obtain ⟨user, host⟩ := uh
    split_ifs <;>
      first
      | rfl
      | (unfold URL.setPath; generalize unescape _ encoding.encodePath = r; cases r <;> rfl)

/-- The parser reads `u ++ "?"` as it reads `u`, with `ForceQuery` set. -/
theorem parse_append_question {u : List Char} (hq : '?' ∉ u) (hstar : u ≠ ['*']) :
    parse (u ++ ['?']) false
      = match parse u false with
        | .error e => .error e
        | .ok p => .ok { p with ForceQuery := true } := by
  have hctl : stringContainsCTLByte (u ++ ['?']) = stringContainsCTLByte u := by
    simp [stringContainsCTLByte]
  have hne : u ++ ['?'] ≠ ['*'] := by
    intro h
    have := congrArg List.getLast? h
    simp at this
  unfold parse
  rw [hctl, getScheme_append_question]
  split
  · rfl
  · simp only [Bool.false_eq_true, and_false, if_false, hne, hstar]
    cases hs : getScheme u with
    | error e => rfl
    | ok sr =>
      obtain ⟨scheme, rest⟩ := sr
      have hrest : '?' ∉ rest := fun hm => hq ((getScheme_rest hs).subset hm)
      have hcount : rest.count '?' = 0 := List.count_eq_zero.2 hrest
      have hcount' : (rest ++ ['?']).count '?' = 1 := by simp [hcount]
      dsimp only
      rw [if_pos (by simp [hcount']), if_neg (by simp [hcount]), cut_of_not_mem hrest]
      simp only [List.dropLast_concat]
      exact parseRest_forceQuery { URL.zero with Scheme := scheme.map Char.toLower } rest false

theorem sign_forceQuery (c : Client) (p : URL) :
    c.sign { p with ForceQuery := true } = c.sign p := by
  rw [sign_eq, sign_eq]
  rfl

/-! ## C5 -/

/-- C5: for a URL string `u` without '?' and '#' that parses, `Sign (u ++ "?")`
succeeds and equals `Sign u`; the result is the text before the query followed
directly by "?signature=" and the HMAC of the path alone. -/
theorem C5_bare_question_mark (c : Client) (u : List Char) (p : URL)
    (hparse : Parse u = .ok p) (hq : '?' ∉ u) (hh : '#' ∉ u) :
    (c.Sign (u ++ "?".toList)).2 = none
      ∧ c.Sign (u ++ "?".toList) = c.Sign u
      ∧ (c.Sign (u ++ "?".toList)).1
          = (pathDefaulted p).stringHead ++ "?signature=".toList
            ++ hexLower (hmacSha1 (c.Secret.map Char.toNat)
                ((pathDefaulted p).Path.map Char.toNat)) := by
  have hone : "?".toList = ['?'] := rfl
  rw [hone]
  have hh' : '#' ∉ u ++ ['?'] := by
    simp [hh]
  obtain ⟨hrq, -, hfrag, -⟩ := Parse_no_query hparse hq hh
  have hp : parse u false = .ok p := by
    rw [Parse_of_no_hash hh] at hparse
    cases h : parse u false with
    | error e => simp [h] at hparse
    | ok url => simp [h] at hparse; rw [hparse]
  have hs : c.Sign (u ++ ['?']) = c.Sign u := by
    by_cases hstar : u = ['*']
    · subst hstar
      have h1 : Parse (['*'] ++ ['?'])
          = .ok { URL.zero with Path := ['*'], RawPath := ['*'], ForceQuery := true } := by
        decide
      have h2 : Parse ['*'] = .ok { URL.zero with Path := ['*'] } := by decide
      simp only [Client.Sign, h1, h2]
      rw [sign_eq, sign_eq]
      rfl
    · have hparse' : Parse (u ++ ['?']) = .ok { p with ForceQuery := true } := by
        rw [Parse_of_no_hash hh', parse_append_question hq hstar, hp]
      simp only [Client.Sign, hparse, hparse', sign_forceQuery]
  have hsig : signature c p = hexLower (hmacSha1 (c.Secret.map Char.toNat)
      ((pathDefaulted p).Path.map Char.toNat)) := by
    simp [signature, stringToSign, hrq, pathDefaulted]
  have hval : c.Sign u = ((pathDefaulted p).stringHead ++ "?signature=".toList
            ++ hexLower (hmacSha1 (c.Secret.map Char.toNat)
                ((pathDefaulted p).Path.map Char.toNat)), none) := by
    simp only [Client.Sign, hparse]
    rw [sign_eq, signedURL_rawQuery, hsig]
    simp [hrq, hfrag]
  rw [hs, hval]
  exact ⟨rfl, rfl, rfl⟩

/-- C5 at `TestSignIgnoresQueryStringSeparatorWithoutQueryString`. -/
theorem C5_bare_question_mark_witness :
    testClient.Sign ("http://test.libpx.com/images/1.jpg".toList ++ "?".toList)
      = testClient.Sign "http://test.libpx.com/images/1.jpg".toList :=
  (C5_bare_question_mark testClient "http://test.libpx.com/images/1.jpg".toList
    { URL.zero with Scheme := "http".toList, Host := "test.libpx.com".toList,
                    Path := "/images/1.jpg".toList }
    (by decide) (by decide) (by decide)).2.1

/-! ## Fragments -/

/-- The function `parse` never sets the fragment. -/
theorem parse_fragment {u : List Char} {v : Bool} {p : URL} (h : parse u v = .ok p) :
    p.Fragment = [] ∧ p.RawFragment = [] := by
  unfold parse at h
  split at h
  · simp at h
  · split at h
    · simp at h
    · split at h
      · simp at h; subst h; simp [URL.zero]
      · split at h
        · simp at h
        · split at h
          · have := parseRest_frame h
            simpa [URL.zero] using this.2.2
          · have := parseRest_frame h
            simpa [URL.zero] using this.2.2

theorem unescapeBytes_ne_nil {mode : encoding} {f : List Char} (hf : f ≠ [])
    (hun : unescapeErr mode f = none) : unescapeBytes mode f ≠ [] := by
  cases f with
  | nil => exact absurd rfl hf
  | cons c cs =>
    unfold unescapeBytes
    split
    · rename_i hc
      cases cs with
      | nil => simp [unescapeErr, hc] at hun
      | cons a cs' =>
        cases cs' with
        | nil => simp [unescapeErr, hc] at hun
        | cons b rest => simp
    · split <;> simp

theorem setFragment_ok (p : URL) {f : List Char}
    (hun : unescapeErr .encodeFragment f = none) :
    p.setFragment f = .ok { p with
      Fragment := unescapeBytes .encodeFragment f,
      RawFragment :=
        if f = escape (unescapeBytes .encodeFragment f) .encodeFragment then [] else f } := by
  simp [URL.setFragment, unescape, hun]

/-- The text `URL.String` prints for the fragment that `setFragment` stored,
when the fragment text is validly encoded: that text, unchanged. -/
theorem escapedFragment_setFragment (p : URL) {f : List Char} (hf : f ≠ [])
    (hvalid : validEncoded f .encodeFragment = true)
    (hun : unescapeErr .encodeFragment f = none) :
    URL.EscapedFragment { p with
      Fragment := unescapeBytes .encodeFragment f,
      RawFragment :=
        if f = escape (unescapeBytes .encodeFragment f) .encodeFragment then [] else f } = f := by
  unfold URL.EscapedFragment
  by_cases he : f = escape (unescapeBytes .encodeFragment f) .encodeFragment
  · simp [← he]
  · simp [he, hf, hvalid, unescapesTo, unescape, hun]

/-! ## C6 -/

set_option maxRecDepth 100000 in
/-- C6, as stated, fails: for u = "http://h/p" and the fragment "a b" the
signed URL ends in "#a%20b", so it is not `Sign u` followed by "#a b". -/
theorem C6_counterexample :
    Parse "http://h/p".toList
        = .ok { URL.zero with Scheme := "http".toList, Host := "h".toList, Path := "/p".toList }
      ∧ testClient.Sign ("http://h/p".toList ++ "#".toList ++ "a b".toList)
          = ((testClient.Sign "http://h/p".toList).1 ++ "#".toList ++ "a%20b".toList, none)
      ∧ testClient.Sign ("http://h/p".toList ++ "#".toList ++ "a b".toList)
          ≠ ((testClient.Sign "http://h/p".toList).1 ++ "#".toList ++ "a b".toList, none) := by
  decide

/-- C6 (amended): for every client, every URL string `u` without '#' that
parses, and every non-empty fragment text `f` that is validly encoded (only
bytes a fragment may hold unescaped and well-formed %XX escapes),
`Sign (u + "#" + f)` succeeds and is `Sign u` followed by "#" and `f`: the
fragment is not signed and comes after the query with its signature. -/
theorem C6_fragment_preserved (c : Client) (u f : List Char) (p : URL)
    (hparse : Parse u = .ok p) (hh : '#' ∉ u) (hf : f ≠ [])
    (hvalid : validEncoded f .encodeFragment = true)
    (hun : unescapeErr .encodeFragment f = none) :
    c.Sign (u ++ "#".toList ++ f) = ((c.Sign u).1 ++ "#".toList ++ f, none) := by
  have hp : parse u false = .ok p := by
    rw [Parse_of_no_hash hh] at hparse
    cases h : parse u false with
    | error e => simp [h] at hparse
    | ok url => simp [h] at hparse; rw [hparse]
  obtain ⟨hfrag, -⟩ := parse_fragment hp
  have hparse' : Parse (u ++ "#".toList ++ f) = .ok { p with
      Fragment := unescapeBytes .encodeFragment f,
      RawFragment :=
        if f = escape (unescapeBytes .encodeFragment f) .encodeFragment then [] else f } := by
    have : u ++ "#".toList ++ f = u ++ '#' :: f := by simp
    rw [this, Parse_hash f hh, hp]
    simp [hf, setFragment_ok p hun]
  simp only [Client.Sign, hparse, hparse']
  rw [sign_eq, sign_eq, escapedFragment_setFragment p hf hvalid hun]
  have hne : unescapeBytes .encodeFragment f ≠ [] := unescapeBytes_ne_nil hf hun
  simp only [hfrag, hne, ne_eq, not_true_eq_false, not_false_eq_true, if_true, if_false,
    List.append_nil]
  have h1 : pathDefaulted { p with
      Fragment := unescapeBytes .encodeFragment f,
      RawFragment :=
        if f = escape (unescapeBytes .encodeFragment f) .encodeFragment then [] else f }
      = { pathDefaulted p with
          Fragment := unescapeBytes .encodeFragment f,
          RawFragment :=
            if f = escape (unescapeBytes .encodeFragment f) .encodeFragment then [] else f } :=
    rfl
  have h2 : (signedURL c { p with
      Fragment := unescapeBytes .encodeFragment f,
      RawFragment :=
        if f = escape (unescapeBytes .encodeFragment f) .encodeFragment then [] else f }).RawQuery
      = (signedURL c p).RawQuery := rfl
  have h3 : URL.stringHead { pathDefaulted p with
          Fragment := unescapeBytes .encodeFragment f,
          RawFragment :=
            if f = escape (unescapeBytes .encodeFragment f) .encodeFragment then [] else f }
      = (pathDefaulted p).stringHead := rfl
  rw [h1, h2, h3]
  simp

/-- C6 (amended) at `TestSignSupportsURLsWithFragmentWithoutQueryString`. -/
theorem C6_fragment_preserved_witness :
    testClient.Sign ("http://test.libpx.com/images/1.jpg".toList ++ "#".toList ++ "test".toList)
      = ((testClient.Sign "http://test.libpx.com/images/1.jpg".toList).1
          ++ "#".toList ++ "test".toList, none) :=
  C6_fragment_preserved testClient "http://test.libpx.com/images/1.jpg".toList "test".toList
    { URL.zero with Scheme := "http".toList, Host := "test.libpx.com".toList,
                    Path := "/images/1.jpg".toList }
    (by decide) (by decide) (by decide) (by decide) (by decide)

/-! ## The signature value -/

theorem sha1_length (msg : List Nat) : (sha1 msg).length = 20 := by
  simp [sha1, wordBytes]

theorem sha1_bytes (msg : List Nat) : ∀ b ∈ sha1 msg, b < 256 := by
  intro b hb
  simp only [sha1, wordBytes, List.mem_append, List.mem_cons, List.mem_singleton,
    List.not_mem_nil, or_false] at hb
  rcases hb with (((h | h) | h) | h) | h <;> rcases h with h | h | h | h <;> subst h <;>
    exact Nat.mod_lt _ (by norm_num)

theorem hexDigit_mem {n : Nat} (h : n < 16) : hexDigit n ∈ "0123456789abcdef".toList := by
  unfold hexDigit
  interval_cases n <;> decide

theorem hexLower_length (bs : List Nat) : (hexLower bs).length = 2 * bs.length := by
  induction bs with
  | nil => rfl
  | cons b bs ih => simp [hexLower, ih]; omega

theorem hexLower_mem {bs : List Nat} (hb : ∀ b ∈ bs, b < 256) :
    ∀ ch ∈ hexLower bs, ch ∈ "0123456789abcdef".toList := by
  induction bs with
  | nil => intro ch h; simp [hexLower] at h
  | cons b bs ih =>
    intro ch h
    have hb' : b < 256 := hb b (by simp)
    simp only [hexLower, List.mem_cons] at h
    rcases h with h | h | h
    · subst h; exact hexDigit_mem (by omega)
    · subst h; exact hexDigit_mem (Nat.mod_lt _ (by norm_num))
    · exact ih (fun b hb'' => hb b (by simp [hb''])) ch h

/-- The signature `sign` computes is 40 lowercase hexadecimal digits. -/
theorem signature_isSignatureValue (c : Client) (u : URL) : IsSignatureValue (signature c u) := by
  unfold signature hmacSha1
  exact ⟨by rw [hexLower_length, sha1_length], hexLower_mem (sha1_bytes _)⟩

/-- The result of `sign`, part by part. -/
theorem sign_parts (c : Client) (u : URL) :
    c.sign u = (pathDefaulted u).stringHead ++ "?".toList
      ++ (if u.RawQuery = [] then [] else u.RawQuery ++ "&".toList)
      ++ "signature=".toList ++ signature c u ++ fragmentSuffix u := by
  rw [sign_eq, signedURL_rawQuery]
  by_cases hq : u.RawQuery = [] <;> by_cases hf : u.Fragment = [] <;>
    simp [hq, hf, fragmentSuffix]

/-! ## C9 -/

set_option maxRecDepth 100000 in
/-- C9, as stated, fails: the input "http://h/p#a b" parses with the fragment
"a b", and what follows the signature value in the result of `Sign` is
"#a%20b", the fragment as `URL.String` escapes it, not "#" and the fragment:
the result does not end in "#a b". -/
theorem C9_counterexample :
    Parse "http://h/p#a b".toList
        = .ok { URL.zero with Scheme := "http".toList, Host := "h".toList, Path := "/p".toList,
                              Fragment := "a b".toList, RawFragment := "a b".toList }
      ∧ testClient.Sign "http://h/p#a b".toList
        = ("http://h/p?signature=e771c08452f49a116d2c1af6e422318aa96f384e#a%20b".toList, none)
      ∧ IsSignatureValue "e771c08452f49a116d2c1af6e422318aa96f384e".toList
      ∧ ¬ ("#a b".toList <:+ (testClient.Sign "http://h/p#a b".toList).1) := by
  refine ⟨by decide, by decide, ⟨by decide, by decide⟩, by decide⟩

/-- C9 (amended): for every URL string that parses, `Sign` succeeds and its result is the
text before the query, "?", the query string, and the fragment suffix ("#" and
the escaped fragment when the parsed URL has a fragment, else nothing); the
query string is the raw query followed by "&" (or nothing when there is no raw
query) and then "signature=" and exactly 40 characters in 0-9 or a-f, so the
signature is the last query parameter.  The same holds, without fragment, for
`URL` when the secret is non-empty. -/
theorem C9_signature_last (c : Client) :
    (∀ (u : List Char) (p : URL), Parse u = .ok p →
      ∃ query sig : List Char,
        c.Sign u = ((pathDefaulted p).stringHead ++ "?".toList ++ query
            ++ "signature=".toList ++ sig ++ fragmentSuffix p, none)
          ∧ (query = [] ∨ query = p.RawQuery ++ "&".toList)
          ∧ IsSignatureValue sig)
      ∧ (∀ (path : List Char) (params : Params), c.Secret ≠ [] →
        ∃ query sig : List Char,
          c.URL path params = ((builtURL c path params).stringHead ++ "?".toList ++ query
              ++ "signature=".toList ++ sig, none)
            ∧ (query = [] ∨ query = (addParams [] params).Encode ++ "&".toList)
            ∧ IsSignatureValue sig
            ∧ '?' ∉ (builtURL c path params).stringHead) := by
  constructor
  · intro u p hparse
    refine ⟨if p.RawQuery = [] then [] else p.RawQuery ++ "&".toList, signature c p, ?_, ?_,
      signature_isSignatureValue c p⟩
    · simp only [Client.Sign, hparse, sign_parts]
    · by_cases hq : p.RawQuery = [] <;> simp [hq]
  · intro path params hs
    refine ⟨if (builtURL c path params).RawQuery = [] then []
        else (builtURL c path params).RawQuery ++ "&".toList,
      signature c (builtURL c path params), ?_, ?_, signature_isSignatureValue c _,
      builtURL_stringHead_no_question c path params⟩
    · simp only [Client.URL, if_neg hs, sign_parts,
        pathDefaulted_of_ne (builtURL_path_ne_nil c path params)]
      simp [fragmentSuffix, builtURL, URL.zero]
    · by_cases hq : (builtURL c path params).RawQuery = []
      · simp [hq]
      · right
        simp only [hq, if_false]
        rfl

/-- C9 (amended) at the URL of `TestSignSupportsURLsWithQueryStringAndFragment`. -/
theorem C9_signature_last_witness :
    ∃ query sig : List Char,
      testClient.Sign "http://test.libpx.com/images/3.jpg?width=300&height=220#image".toList
          = ("http://test.libpx.com/images/3.jpg".toList ++ "?".toList ++ query
              ++ "signature=".toList ++ sig ++ "#image".toList, none)
        ∧ (query = [] ∨ query = "width=300&height=220".toList ++ "&".toList)
        ∧ IsSignatureValue sig :=
  (C9_signature_last testClient).1
    "http://test.libpx.com/images/3.jpg?width=300&height=220#image".toList
    { URL.zero with Scheme := "http".toList, Host := "test.libpx.com".toList,
                    Path := "/images/3.jpg".toList, RawQuery := "width=300&height=220".toList,
                    Fragment := "image".toList }
    (by decide)

/-! ## C10 -/

/-- C10: two URL strings that parse to the same path and the same raw query
get the same signature value from `Sign`, whatever their scheme, host and
fragment: the value is the lowercase hex HMAC-SHA1, keyed by the secret, of
the path ("/" when empty) followed by "?" and the raw query when there is one. -/
theorem C10_signature_of_path_and_query (c : Client) (u₁ u₂ : List Char) (p₁ p₂ : URL)
    (h₁ : Parse u₁ = .ok p₁) (h₂ : Parse u₂ = .ok p₂)
    (hpath : p₁.Path = p₂.Path) (hquery : p₁.RawQuery = p₂.RawQuery) :
    ∃ query sig : List Char,
      c.Sign u₁ = ((pathDefaulted p₁).stringHead ++ "?".toList ++ query
          ++ "signature=".toList ++ sig ++ fragmentSuffix p₁, none)
        ∧ c.Sign u₂ = ((pathDefaulted p₂).stringHead ++ "?".toList ++ query
          ++ "signature=".toList ++ sig ++ fragmentSuffix p₂, none)
        ∧ (query = [] ∨ query = p₁.RawQuery ++ "&".toList)
        ∧ sig = hexLower (hmacSha1 (c.Secret.map Char.toNat)
            (((if p₁.Path = [] then "/".toList else p₁.Path)
              ++ (if p₁.RawQuery = [] then [] else "?".toList ++ p₁.RawQuery)).map Char.toNat))
        ∧ IsSignatureValue sig := by
  have hsig : signature c p₂ = signature c p₁ := by
    simp [signature, stringToSign, hpath, hquery]
  refine ⟨if p₁.RawQuery = [] then [] else p₁.RawQuery ++ "&".toList, signature c p₁, ?_, ?_, ?_,
    ?_, signature_isSignatureValue c p₁⟩
  · simp only [Client.Sign, h₁, sign_parts]
  · simp only [Client.Sign, h₂, sign_parts, hsig, hquery]
  · by_cases hq : p₁.RawQuery = [] <;> simp [hq]
  · unfold signature stringToSign
    by_cases hq : p₁.RawQuery = [] <;> by_cases hp : p₁.Path = [] <;> simp [hq, hp]

/-- C10 at two URLs that differ in scheme, host and fragment. -/
theorem C10_signature_of_path_and_query_witness :
    ∃ query sig : List Char,
      testClient.Sign "http://test.libpx.com/images/2.jpg?width=400".toList
          = ("http://test.libpx.com/images/2.jpg".toList ++ "?".toList ++ query
              ++ "signature=".toList ++ sig ++ [], none)
        ∧ testClient.Sign "https://other.example/images/2.jpg?width=400#top".toList
          = ("https://other.example/images/2.jpg".toList ++ "?".toList ++ query
              ++ "signature=".toList ++ sig ++ "#top".toList, none)
        ∧ (query = [] ∨ query = "width=400".toList ++ "&".toList)
        ∧ sig = hexLower (hmacSha1 (testClient.Secret.map Char.toNat)
            (("/images/2.jpg".toList ++ ("?".toList ++ "width=400".toList)).map Char.toNat))
        ∧ IsSignatureValue sig :=
  C10_signature_of_path_and_query testClient
    "http://test.libpx.com/images/2.jpg?width=400".toList
    "https://other.example/images/2.jpg?width=400#top".toList
    { URL.zero with Scheme := "http".toList, Host := "test.libpx.com".toList,
                    Path := "/images/2.jpg".toList, RawQuery := "width=400".toList }
    { URL.zero with Scheme := "https".toList, Host := "other.example".toList,
                    Path := "/images/2.jpg".toList, RawQuery := "width=400".toList,
                    Fragment := "top".toList }
    (by decide) (by decide) (by decide) (by decide)

/-! ## Escaping -/

set_option maxRecDepth 1000000 in
/-- Hexadecimal digits written by `escape` are read back by `unescape`. -/
theorem hex_roundtrip : ∀ n, n < 256 →
    ishex (upperhex (n >>> 4)) = true ∧ ishex (upperhex (n &&& 15)) = true
      ∧ (unhex (upperhex (n >>> 4)) <<< 4 ||| unhex (upperhex (n &&& 15))) = n := by
  decide

/-- The digits `escape` writes are hexadecimal digits. -/
theorem ishex_upperhex (n : Nat) : ishex (upperhex n) = true :=
  (by decide : ∀ y ∈ "0123456789ABCDEF".toList, ishex y = true) _ (upperhex_mem n)

/-- A host none of whose bytes needs escaping is printed as it is. -/
theorem escape_host_unchanged {host : List Char} (hh : ∀ ch ∈ host, shouldEscape ch .encodeHost = false) :
    escape host .encodeHost = host := by
  induction host with
  | nil => rfl
  | cons c cs ih =>
    have hc := hh c (by simp)
    unfold escape
    simp [hc, ih (fun ch h => hh ch (by simp [h]))]

theorem getLast?_append_of_ne_nil (X : List Char) {E : List Char} (h : E ≠ []) :
    (X ++ E).getLast? = E.getLast? := by
  induction X with
  | nil => rfl
  | cons x X ih =>
    cases hXE : X ++ E with
    | nil => simp at hXE; exact absurd hXE.2 h
    | cons y Y =>
      rw [List.cons_append, hXE, List.getLast?_cons_cons, ← hXE, ih]

theorem mem_of_getLast? {l : List Char} {x : Char} (h : l.getLast? = some x) : x ∈ l := by
  induction l with
  | nil => simp at h
  | cons a l ih =>
    cases l with
    | nil => simp at h; simp [h]
    | cons b l' =>
      rw [List.getLast?_cons_cons] at h
      exact List.mem_cons_of_mem _ (ih h)

/-! ## C8 -/

set_option maxRecDepth 100000 in
/-- C8 (code bug), evaluated at the client of the tests (Host "test.libpx.com",
Secret "LibPixel"), the path "images/1.jpg" (no leading "/") and no
parameters: `URL` signs the `Path` field as given, "images/1.jpg", and returns
the URL printed with the path "/images/1.jpg" and the signature 542f93...;
the same client without secret returns "http://test.libpx.com/images/1.jpg",
and `Sign` of that string signs "/images/1.jpg" and appends bd5634..., the
signature the tests expect for this URL.  The signature `URL` appends is not
the one the signing procedure gives for the URL it delivers. -/
theorem C8_URL_signs_path_as_given :
    stringToSign (builtURL testClient "images/1.jpg".toList []) = "images/1.jpg".toList
      ∧ testClient.URL "images/1.jpg".toList []
        = ("http://test.libpx.com/images/1.jpg?signature=542f9373e05612f65607c338d509ba36dca86bee".toList,
           none)
      ∧ ({ testClient with Secret := [] } : Client).URL "images/1.jpg".toList []
        = ("http://test.libpx.com/images/1.jpg".toList, none)
      ∧ testClient.Sign "http://test.libpx.com/images/1.jpg".toList
        = ("http://test.libpx.com/images/1.jpg?signature=bd5634c055d707c1638eff93eb88ff31277958f0".toList,
           none)
      ∧ testClient.URL "images/1.jpg".toList []
        ≠ testClient.Sign
            (({ testClient with Secret := [] } : Client).URL "images/1.jpg".toList []).1 := by
  decide

/-! ## C11 -/

/-- C11: for every client, with or without secret, and every parameter map,
`URL "" params` equals `URL "/" params`: both build the URL value with path
"/", so the output has the path "/" and, when signing, the signed string is
"/" followed by "?" and the canonical query when there is one. -/
theorem C11_empty_path_is_slash (c : Client) (params : Params) :
    c.URL [] params = c.URL "/".toList params
      ∧ (builtURL c [] params).Path = "/".toList
      ∧ stringToSign (builtURL c [] params)
          = "/".toList ++ (if (addParams [] params).Encode = [] then []
              else "?".toList ++ (addParams [] params).Encode) := by
  have h : builtURL c [] params = builtURL c "/".toList params := by
    simp [builtURL]
  refine ⟨?_, rfl, ?_⟩
  · simp only [Client.URL, h]
  · unfold stringToSign builtURL
    by_cases he : (addParams [] params).Encode = [] <;> simp [he]

/-! ## C14 -/

/-- C14: `Sign` returns an error exactly when `url.Parse` rejects its input;
then the returned string is empty and the error is the parser's error,
unchanged.  For every input that parses, the error is nil and the result is
the non-empty signed URL; with an empty secret the digest is keyed by the
empty string. -/
theorem C14_sign_error_iff_parse_error (c : Client) (u : List Char) :
    ((c.Sign u).2 ≠ none ↔ ∃ e, Parse u = .error e)
      ∧ (∀ e, Parse u = .error e → c.Sign u = ([], some e))
      ∧ (∀ p, Parse u = .ok p →
          c.Sign u = (c.sign p, none) ∧ (c.Sign u).1 ≠ []
            ∧ (c.Secret = [] →
                signature c p = hexLower (hmacSha1 [] ((stringToSign p).map Char.toNat)))) := by
  refine ⟨?_, ?_, ?_⟩
  · cases h : Parse u with
    | error e => simp [Client.Sign, h]
    | ok p => simp [Client.Sign, h]
  · intro e h
    simp [Client.Sign, h]
  · intro p h
    refine ⟨by simp [Client.Sign, h], ?_, ?_⟩
    · simp only [Client.Sign, h]
      rw [sign_eq]
      simp
    · intro hs
      simp [signature, hs]

/-- C14 at a URL that parses and at one that does not (a bad escape in the host). -/
theorem C14_sign_error_iff_parse_error_witness :
    (testClient.Sign "http://test.libpx.com/images/1.jpg".toList).2 = none
      ∧ (testClient.Sign "http://test.libpx.com/images/1.jpg".toList).1 ≠ []
      ∧ testClient.Sign "http://a%20b/p".toList
          = ([], some { Op := "parse".toList, URL := "http://a%20b/p".toList,
                        Err := .escapeError "%20".toList }) :=
  ⟨congrArg Prod.snd
      ((C14_sign_error_iff_parse_error testClient "http://test.libpx.com/images/1.jpg".toList).2.2
        { URL.zero with Scheme := "http".toList, Host := "test.libpx.com".toList,
                        Path := "/images/1.jpg".toList } (by decide)).1,
    ((C14_sign_error_iff_parse_error testClient "http://test.libpx.com/images/1.jpg".toList).2.2
        { URL.zero with Scheme := "http".toList, Host := "test.libpx.com".toList,
                        Path := "/images/1.jpg".toList } (by decide)).2.1,
    (C14_sign_error_iff_parse_error testClient "http://a%20b/p".toList).2.1 _ (by decide)⟩

/-! ## C15 -/

/-- C15: for every client, every path and every parameter map (the empty list
for nil, values of any kind), `URL` returns a nil error. -/
theorem C15_URL_never_fails (c : Client) (path : List Char) (params : Params) :
    (c.URL path params).2 = none := by
  unfold Client.URL
  split <;> rfl

/-! ## C13 -/

/-- For a URL with a scheme and no opaque part, `URL.String` begins with the
scheme, ":" and the authority. -/
theorem stringHead_of_scheme {u : URL} (hs : u.Scheme ≠ []) (ho : u.Opaque = []) :
    ∃ tail, u.stringHead = u.Scheme ++ ':' :: u.authorityString ++ tail := by
  unfold URL.stringHead
  simp only [hs, ho, ne_eq, not_false_eq_true, not_true_eq_false, if_true, if_false]
  by_cases h1 : ¬u.EscapedPath = [] ∧ ¬u.EscapedPath.head? = some '/' ∧ ¬u.Host = []
  · refine ⟨'/' :: u.EscapedPath, ?_⟩
    simp [h1]
  · refine ⟨u.EscapedPath, ?_⟩
    simp [h1]


/-- What `URL` returns starts with the scheme, "://" and the escaped host. -/
theorem URL_scheme_host_escaped (c : Client) (path : List Char) (params : Params) :
    ((if c.HTTPS then "https://".toList else "http://".toList)
        ++ escape c.Host .encodeHost) <+: (c.URL path params).1 := by
  have hp : (builtURL c path params).Path ≠ [] := builtURL_path_ne_nil c path params
  have ha : (builtURL c path params).authorityString
      = "//".toList ++ escape c.Host .encodeHost := by
    unfold URL.authorityString
    obtain ⟨host, https, secret⟩ := c
    by_cases hh : host = [] <;> by_cases hpe : path = [] <;> cases https <;>
      simp [builtURL, URL.zero, hh, hpe, escape]
  have hs : (builtURL c path params).Scheme
      = (if c.HTTPS then "https".toList else "http".toList) := rfl
  have hne : (builtURL c path params).Scheme ≠ [] := by
    rw [hs]; cases c.HTTPS <;> simp
  obtain ⟨tail, ht⟩ := stringHead_of_scheme hne rfl
  rw [ha, hs] at ht
  have hpre : ((if c.HTTPS then "https://".toList else "http://".toList)
        ++ escape c.Host .encodeHost) <+: (builtURL c path params).stringHead := by
    rw [ht]
    refine ⟨tail, ?_⟩
    cases c.HTTPS <;> simp
  by_cases hsec : c.Secret = []
  · have hu : (c.URL path params).1 = (builtURL c path params).String := by
      simp [Client.URL, hsec]
    rw [hu]
    unfold URL.String
    rw [List.append_assoc]
    exact hpre.trans (List.prefix_append _ _)
  · have hu : (c.URL path params).1 = c.sign (builtURL c path params) := by
      simp [Client.URL, hsec]
    rw [hu, sign_eq, pathDefaulted_of_ne hp, List.append_assoc]
    exact hpre.trans (List.prefix_append _ _)

/-- C13, as stated, fails: with the host "my host" the result starts with
"https://my%20host", not with "https://" followed by the host as given. -/
theorem C13_counterexample :
    "https://my%20host/images/1.jpg?width=600&signature=".toList
        <+: (({ Host := "my host".toList, HTTPS := true, Secret := "LibPixel".toList } : Client).URL
              "/images/1.jpg".toList [("width".toList, .int 600)]).1
      ∧ ¬ (("https://".toList ++ "my host".toList)
        <+: (({ Host := "my host".toList, HTTPS := true, Secret := "LibPixel".toList } : Client).URL
              "/images/1.jpg".toList [("width".toList, .int 600)]).1) := by
  decide

/-- C13 (amended): for every client, path and parameter map, the result of
`URL` starts with "https://" (HTTPS flag set) or "http://" (not set) followed
by the host percent-encoded as a URL host, independently of secret, path and
parameters; when no byte of the host needs escaping, that is the host itself. -/
theorem C13_URL_scheme_and_host (c : Client) (path : List Char) (params : Params) :
    ((if c.HTTPS then "https://".toList else "http://".toList)
        ++ escape c.Host .encodeHost) <+: (c.URL path params).1
      ∧ ((∀ ch ∈ c.Host, shouldEscape ch .encodeHost = false) →
          ((if c.HTTPS then "https://".toList else "http://".toList) ++ c.Host)
            <+: (c.URL path params).1) := by
  refine ⟨URL_scheme_host_escaped c path params, ?_⟩
  intro hh
  have := URL_scheme_host_escaped c path params
  rwa [escape_host_unchanged hh] at this

/-- C13 (amended) at `TestURLUsesHTTPSWhenHTTPSIsTrue`. -/
theorem C13_URL_scheme_and_host_witness :
    ("https://".toList ++ "test.libpx.com".toList)
      <+: (({ Host := "test.libpx.com".toList, HTTPS := true, Secret := [] } : Client).URL
            "/images/1.jpg".toList []).1 :=
  (C13_URL_scheme_and_host { Host := "test.libpx.com".toList, HTTPS := true, Secret := [] }
    "/images/1.jpg".toList []).2 (by decide)

/-! ## C17 -/

/-- Splitting the string to sign at its first '?' gives back the defaulted path
and the raw query, when the path holds no '?'. -/
theorem cut_stringToSign {p : URL} (hq : '?' ∉ p.Path) :
    (cut '?' (stringToSign p)).1 = (pathDefaulted p).Path
      ∧ (cut '?' (stringToSign p)).2.1 = p.RawQuery := by
  have hd : '?' ∉ (pathDefaulted p).Path := by
    unfold pathDefaulted
    by_cases h : p.Path = []
    · simp [h]
    · simpa [h] using hq
  have hs : stringToSign p
      = (pathDefaulted p).Path ++ (if p.RawQuery ≠ [] then '?' :: p.RawQuery else []) := by
    unfold stringToSign pathDefaulted
    by_cases h : p.RawQuery = [] <;> simp [h]
  rw [hs]
  by_cases h : p.RawQuery = []
  · simp [h, cut_of_not_mem hd]
  · simp only [h, ne_eq, not_false_eq_true, if_true]
    rw [cut_append_of_not_mem _ hd]
    exact ⟨rfl, rfl⟩

set_option maxRecDepth 100000 in
/-- C17, as stated, fails: "http://h/a%3Fb" parses to the path "/a?b" without
query and "http://h/a?b" to the path "/a" with the query "b"; both have the
string to sign "/a?b", and `Sign` gives both the same signature value. -/
theorem C17_counterexample :
    Parse "http://h/a%3Fb".toList
        = .ok { URL.zero with Scheme := "http".toList, Host := "h".toList,
                              Path := "/a?b".toList }
      ∧ Parse "http://h/a?b".toList
        = .ok { URL.zero with Scheme := "http".toList, Host := "h".toList,
                              Path := "/a".toList, RawQuery := "b".toList }
      ∧ stringToSign { URL.zero with Scheme := "http".toList, Host := "h".toList,
                                     Path := "/a?b".toList } = "/a?b".toList
      ∧ stringToSign { URL.zero with Scheme := "http".toList, Host := "h".toList,
                                     Path := "/a".toList, RawQuery := "b".toList } = "/a?b".toList
      ∧ testClient.Sign "http://h/a%3Fb".toList
        = ("http://h/a%3Fb?signature=445bd975a4c00391cfc2ee899ff2688a5d603cc8".toList, none)
      ∧ testClient.Sign "http://h/a?b".toList
        = ("http://h/a?b&signature=445bd975a4c00391cfc2ee899ff2688a5d603cc8".toList, none) := by
  decide

/-- C17 (amended): for every two URL strings that parse successfully to paths
without '?', if the strings to sign are equal then the two URLs have the same
raw query and the same path, an empty path counting as "/". -/
theorem C17_string_to_sign_determines (u₁ u₂ : List Char) (p₁ p₂ : URL)
    (_h₁ : Parse u₁ = .ok p₁) (_h₂ : Parse u₂ = .ok p₂)
    (hq₁ : '?' ∉ p₁.Path) (hq₂ : '?' ∉ p₂.Path)
    (hs : stringToSign p₁ = stringToSign p₂) :
    (if p₁.Path = [] then "/".toList else p₁.Path) = (if p₂.Path = [] then "/".toList else p₂.Path)
      ∧ p₁.RawQuery = p₂.RawQuery := by
  have h1 := cut_stringToSign hq₁
  have h2 := cut_stringToSign hq₂
  rw [hs] at h1
  exact ⟨h1.1.symm.trans h2.1, h1.2.symm.trans h2.2⟩

/-- C17 (amended) at two URLs that differ in scheme, host and fragment and
sign the same string "/x?y=1". -/
theorem C17_string_to_sign_determines_witness :
    Parse "http://a/x?y=1".toList
        = .ok { URL.zero with Scheme := "http".toList, Host := "a".toList,
                              Path := "/x".toList, RawQuery := "y=1".toList }
      ∧ Parse "https://b/x?y=1#f".toList
        = .ok { URL.zero with Scheme := "https".toList, Host := "b".toList,
                              Path := "/x".toList, RawQuery := "y=1".toList,
                              Fragment := "f".toList }
      ∧ ((if "/x".toList = [] then "/".toList else "/x".toList)
          = (if "/x".toList = [] then "/".toList else "/x".toList)
        ∧ "y=1".toList = "y=1".toList) :=
  ⟨by decide, by decide,
    C17_string_to_sign_determines "http://a/x?y=1".toList "https://b/x?y=1#f".toList
      { URL.zero with Scheme := "http".toList, Host := "a".toList,
                      Path := "/x".toList, RawQuery := "y=1".toList }
      { URL.zero with Scheme := "https".toList, Host := "b".toList,
                      Path := "/x".toList, RawQuery := "y=1".toList, Fragment := "f".toList }
      (by decide) (by decide) (by decide) (by decide) (by decide)⟩

/-! ## An empty path in `Sign` -/

theorem cut_append_left {sep : Char} {s : List Char} (t : List Char) (h : sep ∉ s) :
    cut sep (s ++ t) = (s ++ (cut sep t).1, (cut sep t).2.1, (cut sep t).2.2) := by
  induction s with
  | nil => simp
  | cons c cs ih =>
    have hc : c ≠ sep := fun e => h (by simp [e])
    have hcs : sep ∉ cs := fun e => h (by simp [e])
    simp [cut, hc, ih hcs]

theorem getSchemeAux_scheme (rest : List Char) :
    ∀ (cs pre : List Char),
      (cs.all fun d =>
        (('a' ≤ d && d ≤ 'z') || ('A' ≤ d && d ≤ 'Z'))
          || (('0' ≤ d && d ≤ '9') || d = '+' || d = '-' || d = '.')) = true →
      pre ≠ [] →
      getSchemeAux (pre ++ cs ++ ':' :: rest) pre.length (cs ++ ':' :: rest)
        = .ok (pre ++ cs, rest) := by
  intro cs
  induction cs with
  | nil =>
    intro pre _ hpre
    have hlen : pre.length ≠ 0 := fun h => hpre (List.length_eq_zero.1 h)
    have : ((pre ++ ':' :: rest).take pre.length) = pre := by simp
    simp [getSchemeAux, hlen]
  | cons c cs ih =>
    intro pre hall hpre
    have hlen : pre.length ≠ 0 := fun h => hpre (List.length_eq_zero.1 h)
    simp only [List.all_cons, Bool.and_eq_true] at hall
    have hstep := ih (pre ++ [c]) hall.2 (by simp)
    simp only [List.append_assoc, List.singleton_append, List.length_append, List.length_singleton]
      at hstep
    have hgoal : getSchemeAux (pre ++ (c :: cs) ++ ':' :: rest) pre.length
          (c :: (cs ++ ':' :: rest))
        = getSchemeAux (pre ++ (c :: cs) ++ ':' :: rest) (pre.length + 1) (cs ++ ':' :: rest) := by
      by_cases hl : ((('a' ≤ c && c ≤ 'z') || ('A' ≤ c && c ≤ 'Z')) : Bool) = true
      · simp only [getSchemeAux]
        rw [if_pos hl]
      · have hd : ((('0' ≤ c && c ≤ '9') || c = '+' || c = '-' || c = '.') : Bool) = true := by
          have := hall.1
          rw [Bool.or_eq_true] at this
          rcases this with h | h
          · exact absurd h hl
          · exact h
        simp only [getSchemeAux]
        rw [if_neg hl, if_pos hd, if_neg hlen]
    rw [List.cons_append, hgoal]
    simpa using hstep

theorem getScheme_of_validScheme {scheme : List Char} (hv : validScheme scheme = true)
    (rest : List Char) : getScheme (scheme ++ ':' :: rest) = .ok (scheme, rest) := by
  cases scheme with
  | nil => simp [validScheme] at hv
  | cons c cs =>
    simp only [validScheme, Bool.and_eq_true] at hv
    have h := getSchemeAux_scheme rest cs [c] hv.2 (by simp)
    simp only [List.singleton_append, List.length_singleton] at h
    unfold getScheme
    simp only [List.cons_append, getSchemeAux]
    rw [if_pos hv.1]
    exact h


theorem parseRest_authority (U : URL) (host P : List Char) (hU : U.Scheme ≠ [])
    (hs : '/' ∉ host) (hP : P = [] ∨ P = ['/']) :
    parseRest U ('/' :: '/' :: (host ++ P)) false
      = match parseAuthority host with
        | .error e => .error e
        | .ok (user, h) => .ok { U with User := user, Host := h, Path := P, RawPath := [] } := by
  unfold parseRest
  simp only [List.isPrefixOf, List.drop, hU, ne_eq, not_false_eq_true, true_or, and_self,
    not_true_eq_false, false_and, if_false, if_true, Bool.true_and, beq_self_eq_true,
    Bool.and_self, Bool.and_true]
  rcases hP with h | h <;> subst h
  · rw [List.append_nil, cut_of_not_mem hs]
    cases parseAuthority host with
    | error e => rfl
    | ok uh =>
      obtain ⟨user, h⟩ := uh
      simp [URL.setPath, unescape, unescapeErr, unescapeBytes, escape]
  · rw [cut_append_of_not_mem _ hs]
    cases parseAuthority host with
    | error e => rfl
    | ok uh =>
      obtain ⟨user, h⟩ := uh
      have hu : unescape ['/'] .encodePath = .ok ['/'] := by decide
      have he : escape ['/'] .encodePath = ['/'] := by decide
      simp [URL.setPath, hu, he]

/-- What `parse` makes of scheme + "://" + authority + an empty path or "/" +
an optional query. -/
theorem parse_authority (scheme host P q : List Char) (hv : validScheme scheme = true)
    (hs : '/' ∉ host) (hh : '?' ∉ host) (hP : P = [] ∨ P = ['/'])
    (hq : q = [] ∨ q.head? = some '?') :
    parse (scheme ++ "://".toList ++ host ++ P ++ q) false
      = if stringContainsCTLByte (scheme ++ host ++ q) then .error .invalidControlCharacter
        else match parseAuthority host with
          | .error e => .error e
          | .ok (user, h) =>
            .ok { URL.zero with
                  Scheme := scheme.map Char.toLower, User := user, Host := h, Path := P,
                  ForceQuery := decide (q.getLast? = some '?' ∧ q.count '?' = 1),
                  RawQuery := if q.getLast? = some '?' ∧ q.count '?' = 1 then [] else q.tail } := by
  have hshape : scheme ++ "://".toList ++ host ++ P ++ q
      = scheme ++ ':' :: ('/' :: '/' :: (host ++ P) ++ q) := by simp
  have hctl : stringContainsCTLByte (scheme ++ ':' :: ('/' :: '/' :: (host ++ P) ++ q))
      = stringContainsCTLByte (scheme ++ host ++ q) := by
    rcases hP with h | h <;> subst h <;>
      simp [stringContainsCTLByte, List.any_append]
  have hstar : scheme ++ ':' :: ('/' :: '/' :: (host ++ P) ++ q) ≠ ['*'] := by
    intro h
    have := congrArg List.length h
    simp at this
    omega
  have hpre : '?' ∉ '/' :: '/' :: (host ++ P) := by
    rcases hP with h | h <;> subst h <;> simp [hh]
  rw [hshape]
  unfold parse
  rw [hctl, getScheme_of_validScheme hv]
  split
  · rfl
  · simp only [Bool.false_eq_true, and_false, if_false, hstar]
    have hcount : ('/' :: '/' :: (host ++ P) ++ q).count '?' = q.count '?' := by
      rw [List.count_append, List.count_eq_zero.2 hpre, Nat.zero_add]
    have hlast : ('/' :: '/' :: (host ++ P) ++ q).getLast? = some '?' ↔ q.getLast? = some '?' := by
      by_cases hq0 : q = []
      · subst hq0
        simp only [List.append_nil, List.getLast?_nil]
        constructor
        · intro h; exact absurd (mem_of_getLast? h) hpre
        · intro h; exact absurd h (by simp)
      · rw [getLast?_append_of_ne_nil _ hq0]
    have hne : (scheme.map Char.toLower) ≠ [] := by
      cases scheme with
      | nil => simp [validScheme] at hv
      | cons c cs => simp
    by_cases hF : q.getLast? = some '?' ∧ q.count '?' = 1
    · have hq1 : q = ['?'] := by
        rcases hq with h | h
        · subst h; simp at hF
        · cases q with
          | nil => simp at h
          | cons x q' =>
            simp at h
            subst h
            have hc : q'.count '?' = 0 := by
              have := hF.2
              simp at this
              exact this
            have hnm : '?' ∉ q' := List.count_eq_zero.1 hc
            cases q' with
            | nil => rfl
            | cons y q'' =>
              have := hF.1
              rw [List.getLast?_cons_cons] at this
              exact absurd (mem_of_getLast? this) hnm
      subst hq1
      rw [if_pos ⟨hlast.2 hF.1, by rw [hcount]; exact hF.2⟩, List.dropLast_concat,
        parseRest_authority _ host P hne hs hP]
      cases parseAuthority host with
      | error e => rfl
      | ok uh =>
        obtain ⟨user, h⟩ := uh
        simp [URL.zero]
    · rw [if_neg (fun h => hF ⟨hlast.1 h.1, by rw [← hcount]; exact h.2⟩), cut_append_left q hpre]
      have hcq : (cut '?' q).1 = [] ∧ (cut '?' q).2.1 = q.tail := by
        rcases hq with h | h
        · subst h; exact ⟨rfl, rfl⟩
        · cases q with
          | nil => simp at h
          | cons x q' =>
            simp at h
            subst h
            simp [cut]
      rw [hcq.1, hcq.2, List.append_nil, parseRest_authority _ host P hne hs hP]
      cases parseAuthority host with
      | error e => rfl
      | ok uh =>
        obtain ⟨user, h⟩ := uh
        simp [URL.zero, hF]


theorem validScheme_not_mem {scheme : List Char} (hv : validScheme scheme = true) {x : Char}
    (hx : ((('a' ≤ x && x ≤ 'z') || ('A' ≤ x && x ≤ 'Z'))
          || (('0' ≤ x && x ≤ '9') || x = '+' || x = '-' || x = '.')) = false) :
    x ∉ scheme := by
  cases scheme with
  | nil => simp
  | cons c cs =>
    simp only [validScheme, Bool.and_eq_true, List.all_eq_true] at hv
    intro hmem
    rcases List.mem_cons.1 hmem with h | h
    · subst h
      have := hv.1
      rw [Bool.or_eq_false_iff] at hx
      rw [hx.1] at this
      exact absurd this (by simp)
    · have := hv.2 x h
      rw [hx] at this
      exact absurd this (by simp)

/-- Signing a URL with an empty path and signing it with the path "/" give the same result. -/
theorem sign_path_slash (c : Client) {p : URL} (h : p.Path = []) :
    c.sign { p with Path := ['/'] } = c.sign p := by
  unfold Client.sign signedURL signature stringToSign
  simp [h]

/-- How `Parse` splits scheme + "://" + authority + an empty path or "/" + rest
at the first '#' of the rest. -/
theorem Parse_authority (scheme host P rest : List Char) (hv : validScheme scheme = true)
    (hf : '#' ∉ host) (hP : P = [] ∨ P = ['/']) :
    Parse (scheme ++ "://".toList ++ host ++ P ++ rest)
      = match parse (scheme ++ "://".toList ++ host ++ P ++ (cut '#' rest).1) false with
        | .error e =>
          .error { Op := "parse".toList,
                   URL := scheme ++ "://".toList ++ host ++ P ++ (cut '#' rest).1, Err := e }
        | .ok url =>
          if (cut '#' rest).2.1 = [] then .ok url
          else match url.setFragment (cut '#' rest).2.1 with
            | .error e =>
              .error { Op := "parse".toList,
                       URL := scheme ++ "://".toList ++ host ++ P ++ rest, Err := e }
            | .ok url => .ok url := by
  have hA : '#' ∉ scheme ++ "://".toList ++ host ++ P := by
    have h1 : '#' ∉ scheme := validScheme_not_mem hv (by decide)
    rcases hP with h | h <;> subst h <;> simp [h1, hf]
  unfold Parse
  rw [cut_append_left rest hA]

theorem cut_hash_rest {rest : List Char}
    (hrest : rest = [] ∨ rest.head? = some '?' ∨ rest.head? = some '#') :
    (cut '#' rest).1 = [] ∨ (cut '#' rest).1.head? = some '?' := by
  rcases hrest with h | h | h
  · subst h; exact Or.inl rfl
  · cases rest with
    | nil => simp at h
    | cons x r =>
      simp at h
      subst h
      right
      simp [cut]
  · cases rest with
    | nil => simp at h
    | cons x r =>
      simp at h
      subst h
      left
      simp [cut]


/-! ## C12 -/

/-- C12: for every client and every URL string scheme + "://" + host + rest
that parses, where scheme is a URL scheme, host holds no '/', '?' or '#' and
rest is empty or begins with '?' or '#', `Sign` gives the same result as for
scheme + "://" + host + "/" + rest; the parsed path is empty, the path of the
signed URL is "/" and the signed string begins with "/". -/
theorem C12_empty_path_signs_as_slash (c : Client) (scheme host rest : List Char) (p : URL)
    (hscheme : validScheme scheme = true)
    (hhost : '/' ∉ host ∧ '?' ∉ host ∧ '#' ∉ host)
    (hrest : rest = [] ∨ rest.head? = some '?' ∨ rest.head? = some '#')
    (hparse : Parse (scheme ++ "://".toList ++ host ++ rest) = .ok p) :
    c.Sign (scheme ++ "://".toList ++ host ++ rest)
        = c.Sign (scheme ++ "://".toList ++ host ++ "/".toList ++ rest)
      ∧ p.Path = []
      ∧ (signedURL c p).Path = "/".toList
      ∧ (stringToSign p).head? = some '/' := by
  obtain ⟨hs, hh, hf⟩ := hhost
  have hq := cut_hash_rest hrest
  have h1 := Parse_authority scheme host [] rest hscheme hf (Or.inl rfl)
  have h2 := Parse_authority scheme host ['/'] rest hscheme hf (Or.inr rfl)
  rw [parse_authority scheme host [] _ hscheme hs hh (Or.inl rfl) hq] at h1
  rw [parse_authority scheme host ['/'] _ hscheme hs hh (Or.inr rfl) hq] at h2
  simp only [List.append_nil] at h1
  rw [hparse] at h1
  have hone : "/".toList = ['/'] := rfl
  rw [hone]
  have key : p.Path = []
      ∧ Parse (scheme ++ "://".toList ++ host ++ ['/'] ++ rest) = .ok { p with Path := ['/'] } := by
    rw [h2]
    by_cases hctl : stringContainsCTLByte (scheme ++ host ++ (cut '#' rest).1) = true
    · rw [if_pos hctl] at h1
      simp at h1
    · rw [if_neg hctl] at h1 ⊢
      cases hpa : parseAuthority host with
      | error e => rw [hpa] at h1; simp at h1
      | ok uh =>
        obtain ⟨user, h⟩ := uh
        rw [hpa] at h1
        dsimp only at h1 ⊢
        by_cases hfr : (cut '#' rest).2.1 = []
        · rw [if_pos hfr] at h1 ⊢
          simp only [Except.ok.injEq] at h1
          subst h1
          exact ⟨rfl, rfl⟩
        · rw [if_neg hfr] at h1 ⊢
          unfold URL.setFragment at h1 ⊢
          cases hun : unescape (cut '#' rest).2.1 encoding.encodeFragment with
          | error e => rw [hun] at h1; simp at h1
          | ok frag =>
            rw [hun] at h1
            simp only [Except.ok.injEq] at h1
            subst h1
            exact ⟨rfl, rfl⟩
  obtain ⟨hpath, hparse'⟩ := key
  refine ⟨?_, hpath, ?_, ?_⟩
  · simp only [Client.Sign, hparse, hparse', sign_path_slash c hpath]
  · simp [signedURL, hpath]
  · unfold stringToSign
    by_cases hrq : p.RawQuery = [] <;> simp [hpath, hrq]

/-- C12 at "http://test.libpx.com?width=400#top". -/
theorem C12_empty_path_signs_as_slash_witness :
    testClient.Sign ("http".toList ++ "://".toList ++ "test.libpx.com".toList
        ++ "?width=400#top".toList)
      = testClient.Sign ("http".toList ++ "://".toList ++ "test.libpx.com".toList ++ "/".toList
        ++ "?width=400#top".toList) :=
  (C12_empty_path_signs_as_slash testClient "http".toList "test.libpx.com".toList
    "?width=400#top".toList
    { URL.zero with Scheme := "http".toList, Host := "test.libpx.com".toList,
                    RawQuery := "width=400".toList, Fragment := "top".toList }
    (by decide) (by decide) (by decide) (by decide)).1

/-! ## Reading the query back -/

/-- Where the bytes that `escape` writes come from. -/
theorem mem_escape {s : List Char} {mode : encoding} {x : Char} (hx : x ∈ escape s mode) :
    x = '+' ∨ x = '%' ∨ x ∈ "0123456789ABCDEF".toList ∨ shouldEscape x mode = false := by
  induction s with
  | nil => simp [escape] at hx
  | cons c cs ih =>
    unfold escape at hx
    split at hx
    · rcases List.mem_cons.1 hx with h | h
      · exact Or.inl h
      · exact ih h
    · split at hx
      · simp only [List.mem_cons] at hx
        rcases hx with h | h | h | h
        · exact Or.inr (Or.inl h)
        · exact Or.inr (Or.inr (Or.inl (h ▸ upperhex_mem _)))
        · exact Or.inr (Or.inr (Or.inl (h ▸ upperhex_mem _)))
        · exact ih h
      · rename_i hc
        rcases List.mem_cons.1 hx with h | h
        · subst h
          exact Or.inr (Or.inr (Or.inr (by simpa using hc)))
        · exact ih h

/-- An escaped query component holds none of '&', ';' and '='. -/
theorem QueryEscape_no_separator (s : List Char) :
    '&' ∉ QueryEscape s ∧ ';' ∉ QueryEscape s ∧ '=' ∉ QueryEscape s := by
  have h : ∀ x : Char, x ≠ '+' → x ≠ '%' → x ∉ "0123456789ABCDEF".toList →
      shouldEscape x .encodeQueryComponent = true → x ∉ QueryEscape s := by
    intro x h1 h2 h3 h4 hx
    rcases mem_escape hx with h | h | h | h
    · exact h1 h
    · exact h2 h
    · exact h3 h
    · rw [h4] at h; exact absurd h (by simp)
  exact ⟨h _ (by decide) (by decide) (by decide) (by decide),
    h _ (by decide) (by decide) (by decide) (by decide),
    h _ (by decide) (by decide) (by decide) (by decide)⟩

theorem unescapeErr_QueryEscape (s : List Char) :
    unescapeErr .encodeQueryComponent (QueryEscape s) = none := by
  unfold QueryEscape
  induction s with
  | nil => rfl
  | cons c cs ih =>
    unfold escape
    split
    · unfold unescapeErr
      simp [ih]
    · split
      · unfold unescapeErr
        simp [ishex_upperhex, ih]
      · rename_i hc
        have hne : c ≠ '%' := by
          intro e; subst e; exact hc (by decide)
        unfold unescapeErr
        simp [hne, ih]

theorem unescapeBytes_QueryEscape (s : List Char) (hs : ∀ ch ∈ s, ch.toNat < 256) :
    unescapeBytes .encodeQueryComponent (QueryEscape s) = s := by
  unfold QueryEscape
  induction s with
  | nil => rfl
  | cons c cs ih =>
    have ih' := ih (fun ch h => hs ch (by simp [h]))
    unfold escape
    split
    · rename_i hc
      unfold unescapeBytes
      simp [ih', hc.1]
    · split
      · unfold unescapeBytes
        simp [(hex_roundtrip c.toNat (hs c (by simp))).2.2, ih']
      · rename_i hc
        have hne : c ≠ '%' := by
          intro e; subst e; exact hc (by decide)
        have hnp : c ≠ '+' := by
          intro e; subst e; exact hc (by decide)
        unfold unescapeBytes
        simp [hne, hnp, ih']

/-- Reading back a query component that `QueryEscape` wrote gives the component. -/
theorem QueryUnescape_QueryEscape (s : List Char) (hs : ∀ ch ∈ s, ch.toNat < 256) :
    unescape (QueryEscape s) .encodeQueryComponent = .ok s := by
  simp [unescape, unescapeErr_QueryEscape, unescapeBytes_QueryEscape s hs]


theorem canonicalQuery_cons_rest (kv : List Char × Value) (rest : Params) :
    canonicalQuery (kv :: rest)
      = queryPair kv ++ (if rest = [] then [] else '&' :: canonicalQuery rest) := by
  cases rest with
  | nil => simp [canonicalQuery_cons]
  | cons kv' rest' =>
    rw [canonicalQuery_cons kv, canonicalQuery_cons kv']
    simp

theorem queryPair_no_amp (kv : List Char × Value) :
    '&' ∉ queryPair kv ∧ ';' ∉ queryPair kv := by
  have h1 := QueryEscape_no_separator kv.1
  have h2 := QueryEscape_no_separator (Sprintv kv.2)
  unfold queryPair
  constructor
  · intro h
    simp only [List.mem_append, List.mem_cons] at h
    rcases h with h | h | h
    · exact h1.1 h
    · exact absurd h (by decide)
    · exact h2.1 h
  · intro h
    simp only [List.mem_append, List.mem_cons] at h
    rcases h with h | h | h
    · exact h1.2.1 h
    · exact absurd h (by decide)
    · exact h2.2.1 h

/-- The loop of `parseQuery` reads a canonical query string back entry by entry. -/
theorem parseQueryLoop_canonicalQuery :
    ∀ (l : Params) (m : Values) (fuel : Nat),
      (canonicalQuery l).length < fuel →
      (∀ kv ∈ l, (∀ ch ∈ kv.1, ch.toNat < 256) ∧ (∀ ch ∈ Sprintv kv.2, ch.toNat < 256)) →
      parseQueryLoop fuel m none (canonicalQuery l) = (addParams m l, none) := by
  intro l
  induction l with
  | nil =>
    intro m fuel hfuel _
    cases fuel with
    | zero => simp at hfuel
    | succ f => simp [parseQueryLoop, canonicalQuery, List.intercalate, addParams]
  | cons kv rest ih =>
    intro m fuel hfuel hb
    obtain ⟨k, v⟩ := kv
    cases fuel with
    | zero => simp at hfuel
    | succ f =>
      have hne : canonicalQuery ((k, v) :: rest) ≠ [] := by
        rw [canonicalQuery_cons_rest]
        simp [queryPair]
      have hamp := queryPair_no_amp (k, v)
      have hcut : cut '&' (canonicalQuery ((k, v) :: rest))
          = (queryPair (k, v), canonicalQuery rest,
              (cut '&' (canonicalQuery ((k, v) :: rest))).2.2) := by
        rw [canonicalQuery_cons_rest]
        by_cases hr : rest = []
        · subst hr
          simp only [if_true, List.append_nil]
          rw [cut_of_not_mem hamp.1]
          rfl
        · simp only [hr, if_false]
          rw [cut_append_of_not_mem _ hamp.1]
      have hlen : (canonicalQuery rest).length < f := by
        rw [canonicalQuery_cons_rest] at hfuel
        by_cases hr : rest = []
        · subst hr
          simp [queryPair] at hfuel ⊢
          simp [canonicalQuery, List.intercalate]
          omega
        · simp [hr, queryPair] at hfuel
          omega
      have hsemi : (queryPair (k, v)).contains ';' = false := by
        simpa using hamp.2
      have hpne : queryPair (k, v) ≠ [] := queryPair_ne_nil _
      have hceq : cut '=' (queryPair (k, v)) = (QueryEscape k, QueryEscape (Sprintv v), true) := by
        unfold queryPair
        exact cut_append_of_not_mem _ (QueryEscape_no_separator k).2.2
      have hbk := hb (k, v) (by simp)
      unfold parseQueryLoop
      rw [if_neg hne, hcut]
      simp only [hsemi, Bool.false_eq_true, if_false, hpne, hceq,
        QueryUnescape_QueryEscape k hbk.1, QueryUnescape_QueryEscape (Sprintv v) hbk.2]
      rw [ih _ f hlen (fun kv' h => hb kv' (by simp [h]))]
      rfl


/-- The URL value that `URL` builds does not depend on the order in which the
entries of the parameter map are visited. -/
theorem builtURL_of_perm (c : Client) (path : List Char) {params params' : Params}
    (hnd : (params.map Prod.fst).Nodup) (hp : params'.Perm params) :
    builtURL c path params' = builtURL c path params := by
  have hnd' : (params'.map Prod.fst).Nodup := (hp.map Prod.fst).nodup_iff.2 hnd
  unfold builtURL
  rw [Encode_addParams hnd, Encode_addParams hnd', sortedParams_of_perm hnd hp]

/-- The text after the first '?' of what `URL` returns without secret is the canonical query. -/
theorem query_of_URL (c : Client) (hs : c.Secret = []) (path : List Char) (params : Params) :
    (cut '?' (c.URL path params).1).2.1 = (addParams [] params).Encode := by
  have hu : (c.URL path params).1 = (builtURL c path params).String := by
    simp [Client.URL, hs]
  have hq := builtURL_stringHead_no_question c path []
  rw [hu, builtURL_string]
  by_cases hp : params = []
  · subst hp
    simp only [if_true, List.append_nil]
    rw [cut_of_not_mem hq]
    rfl
  · simp only [hp, if_false]
    rw [cut_append_of_not_mem _ hq]

theorem decodedParams_addParams {l : Params} (hnd : (l.map Prod.fst).Nodup)
    (hstr : ∀ kv ∈ l, kv.2.isString = true) : decodedParams (addParams [] l) = l := by
  rw [addParams_of_nodup l [] hnd (fun k _ => List.not_mem_nil k)]
  unfold decodedParams
  simp only [List.nil_append, List.map_map]
  conv_rhs => rw [← List.map_id l]
  apply List.map_congr_left
  intro kv hkv
  have hs := hstr kv hkv
  obtain ⟨k, v⟩ := kv
  cases v <;> first | rfl | simp [Value.isString] at hs

/-! ## C16 -/

/-- C16: without a secret, for every path and every parameter map (distinct
names) whose names and values are strings (bytes below 256), the text after
the first '?' of `URL path params` is the canonical query; `url.ParseQuery`
reads it without error, the decoded values give back the entries of `params`
(as a map: the same entries, in ascending order of name), and `URL` with the
same path and the decoded map returns the identical result. -/
theorem C16_query_roundtrip (c : Client) (hs : c.Secret = []) (path : List Char)
    (params : Params) (hnd : (params.map Prod.fst).Nodup)
    (hstr : ∀ kv ∈ params, kv.2.isString = true)
    (hbytes : ∀ kv ∈ params,
      (∀ ch ∈ kv.1, ch.toNat < 256) ∧ (∀ ch ∈ Sprintv kv.2, ch.toNat < 256)) :
    ∃ v : Values,
      (cut '?' (c.URL path params).1).2.1 = (builtURL c path params).RawQuery
        ∧ ParseQuery (cut '?' (c.URL path params).1).2.1 = (v, none)
        ∧ (decodedParams v).Perm params
        ∧ ((decodedParams v).map Prod.fst).Nodup
        ∧ c.URL path (decodedParams v) = c.URL path params := by
  have hperm := sortedParams_perm params
  have hnd' : ((sortedParams params).map Prod.fst).Nodup := (hperm.map Prod.fst).nodup_iff.2 hnd
  have hdec : decodedParams (addParams [] (sortedParams params)) = sortedParams params :=
    decodedParams_addParams hnd' (fun kv h => hstr kv (hperm.subset h))
  refine ⟨addParams [] (sortedParams params), query_of_URL c hs path params, ?_, ?_, ?_, ?_⟩
  · rw [query_of_URL c hs path params, Encode_addParams hnd]
    unfold ParseQuery
    exact parseQueryLoop_canonicalQuery _ _ _ (Nat.lt_succ_self _)
      (fun kv h => hbytes kv (hperm.subset h))
  · rw [hdec]
    exact hperm
  · rw [hdec]
    exact hnd'
  · rw [hdec]
    simp only [Client.URL, builtURL_of_perm c path hnd hperm]

/-- C16 at `TestURLTurnsParamsIntoQueryString`, with string values. -/
theorem C16_query_roundtrip_witness :
    ∃ v : Values,
      ParseQuery "height=400&width=200".toList = (v, none)
        ∧ (decodedParams v).Perm
            [("width".toList, .str "200".toList), ("height".toList, .str "400".toList)]
        ∧ ({ testClient with Secret := [] } : Client).URL "/images/101.jpg".toList (decodedParams v)
          = ("http://test.libpx.com/images/101.jpg?height=400&width=200".toList, none) := by
  obtain ⟨v, h0, h1, h2, -, h3⟩ :=
    C16_query_roundtrip { testClient with Secret := [] } rfl "/images/101.jpg".toList
      [("width".toList, .str "200".toList), ("height".toList, .str "400".toList)]
      (by decide) (by decide) (by decide)
  have hq : (cut '?' (({ testClient with Secret := [] } : Client).URL "/images/101.jpg".toList
      [("width".toList, .str "200".toList), ("height".toList, .str "400".toList)]).1).2.1
      = "height=400&width=200".toList := by decide
  rw [hq] at h1
  exact ⟨v, h1, h2, h3.trans (by decide)⟩

/-! ## The fuel of `ParseQuery` -/

theorem cut_rest_length (sep : Char) :
    ∀ q : List Char, q ≠ [] → (cut sep q).2.1.length < q.length := by
  intro q
  induction q with
  | nil => intro h; exact absurd rfl h
  | cons c cs ih =>
    intro _
    unfold cut
    split
    · simp
    · cases cs with
      | nil => simp [cut]
      | cons d ds =>
        have := ih (by simp)
        simp only [List.length_cons] at this ⊢
        omega

/-- The loop of `parseQuery` ends within the fuel `ParseQuery` gives it: more
fuel does not change the result. -/
theorem parseQueryLoop_fuel :
    ∀ (f₁ f₂ : Nat) (m : Values) (err : Option ParseErr) (q : List Char),
      q.length < f₁ → q.length < f₂ →
      parseQueryLoop f₁ m err q = parseQueryLoop f₂ m err q := by
  intro f₁
  induction f₁ with
  | zero => intro f₂ m err q h; simp at h
  | succ n ih =>
    intro f₂ m err q h1 h2
    cases f₂ with
    | zero => simp at h2
    | succ k =>
      unfold parseQueryLoop
      by_cases hq : q = []
      · simp [hq]
      · have hl := cut_rest_length '&' q hq
        have a1 : (cut '&' q).2.1.length < n := by omega
        have a2 : (cut '&' q).2.1.length < k := by omega
        simp only [hq, if_false]
        rw [ih k m _ _ a1 a2, ih k m err _ a1 a2]
        cases unescape (cut '=' (cut '&' q).1).1 encoding.encodeQueryComponent with
        | error e => simp only; rw [ih k m _ _ a1 a2]
        | ok key =>
          simp only
          cases unescape (cut '=' (cut '&' q).1).2.1 encoding.encodeQueryComponent with
          | error e => simp only; rw [ih k m _ _ a1 a2]
          | ok value => simp only; rw [ih k _ err _ a1 a2]

end LibPixel
